import Mathlib

/-!
Verification of the hiveminer ranking engine, manifest primitives, pipeline
counters and subreddit normalization, as a shallow embedding in Lean 4.

Modelling conventions, used throughout:

* Go strings are byte slices; we model them as lists of naturals
  (`GoStr`).  String literals appearing in the program are ASCII, so the
  helper `gostr` maps a Lean string to its code points, which coincide
  with its UTF-8 bytes.
* Go `float64` values (confidences, scores, penalties) are modelled as
  elements of a linear ordered field `α`.  Claim theorems about the full
  scoring formula instantiate `α := ℝ` (the log-based components exist
  only there); concrete witnesses instantiate `α := ℚ`, where every
  pipeline stage is computable and decidable.
* Go `int` values are modelled as `ℤ` (or `ℕ` for loop indices).
* Fallible or external steps (the model call of the assessment stage)
  become explicit inputs to the embedded functions.
-/

namespace HiveMiner

/-- A Go string: a sequence of bytes. -/
abbrev GoStr : Type := List Nat

/-- Byte sequence of an ASCII Lean literal.  For ASCII strings the code
points coincide with the UTF-8 bytes that Go indexes. -/
def gostr (s : String) : GoStr := s.data.map Char.toNat

/-- Length of the common prefix of two byte strings, as computed by the
loop of `areSimilar` (src/unnamed/part_018 lines 361-367): compare
position by position, stop at the first mismatch or when either string
ends. -/
def commonLen : GoStr → GoStr → Nat
  | x :: xs, y :: ys => if x = y then commonLen xs ys + 1 else 0
  | _, _ => 0

/-- `strings.Contains a b` from the Go standard library: `b` occurs as a
contiguous substring of `a`. -/
def goContains (a b : GoStr) : Bool := decide (b <:+: a)

/-- `areSimilar` from src/unnamed/part_018 lines 341-370: two normalized
strings refer to the same thing when they are equal, one contains the
other, or (when the shorter has at least 4 bytes) they share a common
prefix of length at least 70% of the shorter string.  The Go source
compares `float64(commonLen) >= float64(len(shorter))*0.7`; for integer
operands this double comparison decides exactly the rational inequality
`commonLen ≥ len(shorter) * 7/10` (the rounding error of the product is
far smaller than the distance from the integer grid except when the
product rounds exactly to the integer boundary, where round-to-even lands
on the boundary itself), which is how we state it. -/
def areSimilar (a b : GoStr) : Bool :=
  if a = b then true
  else if goContains a b || goContains b a then true
  else
    let shorter := if a.length > b.length then b else a
    let longer := if a.length > b.length then a else b
    if shorter.length < 4 then false
    else decide ((commonLen shorter longer : ℚ) ≥ (shorter.length : ℚ) * (7 / 10))

theorem commonLen_comm (a b : GoStr) : commonLen a b = commonLen b a := by
  induction a generalizing b with
  | nil => cases b <;> simp [commonLen]
  | cons x xs ih =>
    cases b with
    | nil => simp [commonLen]
    | cons y ys =>
      simp only [commonLen]
      rcases eq_or_ne x y with h | h
      · subst h; simp [ih]
      · simp [h, Ne.symm h]

/-- Core symmetry fact about the similarity predicate, shared by several
results below. -/
theorem areSimilar_comm (a b : GoStr) : areSimilar a b = areSimilar b a := by
  unfold areSimilar
  by_cases hab : a = b
  · subst hab; rfl
  · have hba : b ≠ a := fun h => hab h.symm
    simp only [if_neg hab, if_neg hba]
    have hor : (goContains a b || goContains b a) = (goContains b a || goContains a b) :=
      Bool.or_comm _ _
    rw [hor]
    by_cases hinf : (goContains b a || goContains a b) = true
    · simp [hinf]
    · simp only [Bool.not_eq_true] at hinf
      simp only [hinf, if_neg Bool.false_ne_true]
      rcases Nat.lt_trichotomy a.length b.length with hlt | heq | hgt
      · have h1 : ¬ a.length > b.length := by omega
        have h2 : b.length > a.length := hlt
        simp [h1, h2]
      · have h1 : ¬ a.length > b.length := by omega
        have h2 : ¬ b.length > a.length := by omega
        simp [h1, h2, heq, commonLen_comm]
      · have h1 : a.length > b.length := hgt
        have h2 : ¬ b.length > a.length := by omega
        simp [h1, h2]

/-- C10: the similarity predicate used for diversity clustering is
symmetric: for every pair of normalized strings `a` and `b`,
`areSimilar a b` equals `areSimilar b a`, so the pairwise union-find
clustering does not depend on the orientation in which a pair is
examined. -/
theorem areSimilar_symm (a b : GoStr) : areSimilar a b = areSimilar b a :=
  areSimilar_comm a b

/-! ## Data model (src/unnamed/part_012, pkg/types)

Prompt-only attributes (questions, search hints, evidence, reasoning,
timestamps) and the run log are omitted: no claim under verification
mentions them.  `α` stands for Go's `float64`. -/

/-- A form field (`types.Field`): stable identifier and required flag. -/
structure Field where
  id : GoStr
  required : Bool
  deriving DecidableEq, Repr

/-- A form (`types.Form`). -/
structure Form where
  title : GoStr
  description : GoStr
  fields : List Field
  deriving DecidableEq, Repr

/-- A dynamic extracted value (`any` in Go).  The ranking code only asks
whether a value is a string (returned as is by `primaryFieldString`) or
not (rendered via `fmt.Sprintf`, whose rendering the constructor
carries). -/
inductive GoValue where
  | vstr : GoStr → GoValue
  | vother : GoStr → GoValue
  deriving DecidableEq, Repr

/-- An extracted field value (`types.FieldValue`): identifier, nullable
dynamic value, confidence. -/
structure FieldValue (α : Type) where
  id : GoStr
  value : Option GoValue
  confidence : α
  deriving DecidableEq, Repr

/-- Modelled from the spec: the hiveminer variant of `types.Entry`.  The
types file present in src is the threadminer variant, which carries only
the field-value list, while the hiveminer orchestrator and viewer write
and read `RankScore`, `RankFlags` and `RankReason`; spec section 3 gives
an entry an ordered list of field values plus optional rank score, flags
and reason, which is what we embed. -/
structure Entry (α : Type) where
  fields : List (FieldValue α)
  rankScore : Option α := none
  rankFlags : List GoStr := []
  rankReason : GoStr := []
  deriving DecidableEq, Repr

/-- Pipeline state of one thread (`types.ThreadState`), timestamps
omitted. -/
structure ThreadState (α : Type) where
  postID : GoStr
  permalink : GoStr
  title : GoStr
  subreddit : GoStr
  score : ℤ
  numComments : ℤ
  status : GoStr
  entries : List (Entry α) := []
  error : GoStr := []
  deriving DecidableEq, Repr

/-- Session state (`types.Manifest`), restricted to the thread list; the
form reference, query, run log and timestamps play no role in any claim
under verification. -/
structure Manifest (α : Type) where
  threads : List (ThreadState α)
  deriving DecidableEq, Repr

/-- Ranker input for one entry (`agent.RankInput`, src/unnamed/part_019). -/
structure RankInput (α : Type) where
  threadPostID : GoStr
  entryIndex : ℤ
  entry : Entry α
  threadScore : ℤ
  numComments : ℤ
  deriving DecidableEq, Repr

/-- Ranker output for one entry (`agent.RankOutput`, src/unnamed/part_019). -/
structure RankOutput (α : Type) where
  threadPostID : GoStr
  entryIndex : ℤ
  algoScore : α
  penalty : α
  finalScore : α
  flags : List GoStr
  reason : GoStr
  deriving DecidableEq, Repr

variable {α : Type} [LinearOrderedField α]

/-- Zero value of `RankInput`, used as the (unreachable) default of list
indexing. -/
def defaultRankInput : RankInput α :=
  { threadPostID := [], entryIndex := 0, entry := { fields := [] },
    threadScore := 0, numComments := 0 }

/-- Zero value of `RankOutput`, used as the (unreachable) default of list
indexing. -/
def defaultRankOutput : RankOutput α :=
  { threadPostID := [], entryIndex := 0, algoScore := 0, penalty := 0,
    finalScore := 0, flags := [], reason := [] }

/-! ## Algorithmic scoring (`ScoreAlgorithmic`, src/unnamed/part_018 lines 65-132) -/

/-- Confidence component: running sum and count over the fields whose
value is non-nil (part_018 lines 69-81). -/
def confidenceComponent (e : Entry α) : α :=
  let nn := e.fields.filter (fun fv => fv.value.isSome)
  if 0 < nn.length then ((nn.map (fun fv => fv.confidence)).sum / (nn.length : α)) * 100
  else 0

/-- Lookup in the `fieldMap` built at part_018 lines 86-89: a Go map
filled in field order, so a later field value with the same id overwrites
an earlier one. -/
def fieldMapLookup (fields : List (FieldValue α)) (id : GoStr) : Option (FieldValue α) :=
  fields.reverse.find? (fun fv => decide (fv.id = id))

/-- Weight of a form field in the completeness component: 2 when
required, 1 otherwise (part_018 lines 90-94). -/
def fieldWeight (f : Field) : α := if f.required then 2 else 1

/-- Completeness component (part_018 lines 83-103). -/
def completenessComponent (form : Form) (e : Entry α) : α :=
  let totalWeight : α := (form.fields.map (fun f => (fieldWeight f : α))).sum
  let filled := form.fields.filter
    (fun f => (fieldMapLookup e.fields f.id).elim false (fun fv => fv.value.isSome))
  let filledWeight : α := (filled.map (fun f => (fieldWeight f : α))).sum
  if 0 < totalWeight then (filledWeight / totalWeight) * 100 else 0

/-- Upvote component (part_018 lines 105-109): log-scaled, caps at about
1000, guarded on a positive thread score. -/
noncomputable def upvoteComponent (threadScore : ℤ) : ℝ :=
  if 0 < threadScore then
    min (Real.logb 2 ((threadScore : ℝ) + 1) / Real.logb 2 1001) 1 * 100
  else 0

/-- Comment component (part_018 lines 111-115). -/
noncomputable def commentComponent (numComments : ℤ) : ℝ :=
  if 0 < numComments then
    min (Real.logb 2 ((numComments : ℝ) + 1) / Real.logb 2 501) 1 * 100
  else 0

/-- `ScoreAlgorithmic` with the two log-scaled components abstracted, so
that the arithmetic of the pass is available over any ordered field. -/
def scoreAlgorithmicWith (upFn comFn : ℤ → α) (form : Form)
    (entries : List (RankInput α)) : List (RankOutput α) :=
  entries.map (fun input =>
    let confidenceScore := confidenceComponent input.entry
    let completenessScore := completenessComponent form input.entry
    let upvoteScore := upFn input.threadScore
    let commentScore := comFn input.numComments
    let algoScore := confidenceScore * (40 / 100) + completenessScore * (25 / 100)
      + upvoteScore * (20 / 100) + commentScore * (15 / 100)
    let algoScore := max 0 (min 100 algoScore)
    { threadPostID := input.threadPostID, entryIndex := input.entryIndex,
      algoScore := algoScore, penalty := 0, finalScore := algoScore,
      flags := [], reason := [] })

/-- `ScoreAlgorithmic` (src/unnamed/part_018 lines 65-132). -/
noncomputable def scoreAlgorithmic (form : Form) (entries : List (RankInput ℝ)) :
    List (RankOutput ℝ) :=
  scoreAlgorithmicWith upvoteComponent commentComponent form entries
/-! ## Claim C1: the scoring formula as the spec states it -/

/-- Spec-side confidence: mean per-field confidence over fields whose
value is non-null, scaled by 100; 0 when no field is non-null. -/
noncomputable def specConfidence (e : Entry ℝ) : ℝ :=
  let nn := e.fields.filter (fun fv => fv.value.isSome)
  if nn.length = 0 then 0
  else ((nn.map (fun fv => fv.confidence)).sum / (nn.length : ℝ)) * 100

/-- Spec-side completeness: (sum of weights over filled fields / sum of
weights over all form fields) * 100, weight 2 for required fields and 1
otherwise. -/
noncomputable def specCompleteness (form : Form) (e : Entry ℝ) : ℝ :=
  let filled := form.fields.filter
    (fun f => (fieldMapLookup e.fields f.id).elim false (fun fv => fv.value.isSome))
  ((filled.map (fun f => (fieldWeight f : ℝ))).sum
      / (form.fields.map (fun f => (fieldWeight f : ℝ))).sum) * 100

/-- Spec-side upvotes: `min(log2(thread score + 1) / log2(1001), 1) * 100`. -/
noncomputable def specUpvotes (threadScore : ℤ) : ℝ :=
  min (Real.logb 2 ((threadScore : ℝ) + 1) / Real.logb 2 1001) 1 * 100

/-- Spec-side comments: `min(log2(num_comments + 1) / log2(501), 1) * 100`. -/
noncomputable def specComments (numComments : ℤ) : ℝ :=
  min (Real.logb 2 ((numComments : ℝ) + 1) / Real.logb 2 501) 1 * 100

/-- Spec-side total score:
`0.40*confidence + 0.25*completeness + 0.20*upvotes + 0.15*comments`,
clamped to `[0, 100]`. -/
noncomputable def specScore (form : Form) (input : RankInput ℝ) : ℝ :=
  max 0 (min 100 ((40 / 100) * specConfidence input.entry
    + (25 / 100) * specCompleteness form input.entry
    + (20 / 100) * specUpvotes input.threadScore
    + (15 / 100) * specComments input.numComments))

theorem confidenceComponent_eq_spec (e : Entry ℝ) :
    confidenceComponent e = specConfidence e := by
  unfold confidenceComponent specConfidence
  rcases Nat.eq_zero_or_pos (e.fields.filter (fun fv => fv.value.isSome)).length with h | h
  · simp [h]
  · have hne : (e.fields.filter (fun fv => fv.value.isSome)).length ≠ 0 := by omega
    simp [h, hne]

theorem totalWeight_pos (form : Form) (hne : form.fields ≠ []) :
    (0 : α) < (form.fields.map (fun f => (fieldWeight f : α))).sum := by
  cases hf : form.fields with
  | nil => exact absurd hf hne
  | cons f fs =>
    have h1 : (0 : α) < fieldWeight f := by
      unfold fieldWeight; split <;> norm_num
    have h2 : (0 : α) ≤ (fs.map (fun f => (fieldWeight f : α))).sum := by
      apply List.sum_nonneg
      intro x hx
      rcases List.mem_map.mp hx with ⟨g, _, rfl⟩
      unfold fieldWeight; split <;> norm_num
    simp only [List.map_cons, List.sum_cons]
    linarith

theorem completenessComponent_eq_spec (form : Form) (e : Entry ℝ) :
    completenessComponent form e = specCompleteness form e := by
  unfold completenessComponent specCompleteness
  rcases eq_or_ne form.fields [] with h | h
  · simp [h]
  · have hpos := totalWeight_pos (α := ℝ) form h
    simp only [if_pos hpos]

theorem upvoteComponent_eq_spec (threadScore : ℤ) (h : 0 ≤ threadScore) :
    upvoteComponent threadScore = specUpvotes threadScore := by
  unfold upvoteComponent specUpvotes
  rcases lt_or_eq_of_le h with hpos | hzero
  · simp [hpos]
  · rw [if_neg (by omega)]
    rw [← hzero]
    norm_num [Real.logb]

theorem commentComponent_eq_spec (numComments : ℤ) (h : 0 ≤ numComments) :
    commentComponent numComments = specComments numComments := by
  unfold commentComponent specComments
  rcases lt_or_eq_of_le h with hpos | hzero
  · simp [hpos]
  · rw [if_neg (by omega)]
    rw [← hzero]
    norm_num [Real.logb]

/-- C1: for every form and list of rank inputs (with the natural
non-negative thread score and comment count), the algorithmic scoring
pass assigns entry `i` the score
`0.40*confidence + 0.25*completeness + 0.20*upvotes + 0.15*comments`,
where confidence is the mean per-field confidence over non-null fields
scaled by 100 (0 when none), completeness is the weighted filled-field
ratio scaled by 100 (weight 2 for required fields), upvotes is
`min(log2(score+1)/log2(1001), 1)*100`, comments is
`min(log2(num_comments+1)/log2(501), 1)*100`, and the result is clamped
to `[0, 100]`; the final score of the pass equals that value. -/
theorem scoreAlgorithmic_formula (form : Form) (entries : List (RankInput ℝ)) (i : ℕ)
    (hi : i < entries.length)
    (hts : 0 ≤ (entries.getD i defaultRankInput).threadScore)
    (hnc : 0 ≤ (entries.getD i defaultRankInput).numComments) :
    ((scoreAlgorithmic form entries).getD i defaultRankOutput).algoScore
        = specScore form (entries.getD i defaultRankInput)
      ∧ ((scoreAlgorithmic form entries).getD i defaultRankOutput).finalScore
        = specScore form (entries.getD i defaultRankInput) := by
  have hlen : (scoreAlgorithmic form entries).length = entries.length := by
    unfold scoreAlgorithmic scoreAlgorithmicWith
    exact List.length_map _ _
  have hgd : (scoreAlgorithmic form entries).getD i defaultRankOutput
      = (scoreAlgorithmic form entries).get ⟨i, by omega⟩ := by
    rw [List.getD_eq_getElem _ _ (by omega)]
    simp [List.get_eq_getElem]
  have hgd2 : entries.getD i defaultRankInput = entries.get ⟨i, hi⟩ := by
    rw [List.getD_eq_getElem _ _ hi]
    simp [List.get_eq_getElem]
  rw [hgd, hgd2]
  unfold scoreAlgorithmic scoreAlgorithmicWith
  simp only [List.get_eq_getElem, List.getElem_map]
  rw [hgd2] at hts hnc
  simp only [List.get_eq_getElem] at hts hnc
  have hu := upvoteComponent_eq_spec _ hts
  have hc := commentComponent_eq_spec _ hnc
  constructor <;>
  · simp only [specScore, confidenceComponent_eq_spec, completenessComponent_eq_spec, hu, hc]
    ring_nf
/-- Concrete form for the scoring witness: one required and one optional
field. -/
def c1Form : Form :=
  { title := gostr ("Trip"), description := [],
    fields := [{ id := gostr ("dest"), required := true },
               { id := gostr ("notes"), required := false }] }

/-- Concrete rank input for the scoring witness. -/
noncomputable def c1Entries : List (RankInput ℝ) :=
  [{ threadPostID := gostr ("t1"), entryIndex := 0,
     entry := { fields := [{ id := gostr ("dest"),
                             value := some (GoValue.vstr (gostr ("paris"))),
                             confidence := 1 / 2 }] },
     threadScore := 3, numComments := 0 }]

/-- Witness: the scoring-formula theorem applied at a concrete form and
entry list. -/
theorem scoreAlgorithmic_formula_witness :
    ((scoreAlgorithmic c1Form c1Entries).getD 0 defaultRankOutput).algoScore
        = specScore c1Form (c1Entries.getD 0 defaultRankInput)
      ∧ ((scoreAlgorithmic c1Form c1Entries).getD 0 defaultRankOutput).finalScore
        = specScore c1Form (c1Entries.getD 0 defaultRankInput) :=
  scoreAlgorithmic_formula c1Form c1Entries 0 (by decide) (by decide) (by decide)

/-! ## List helpers shared by the penalty stages -/

/-- Point update of a list: apply `f` to the element at position `i`,
leave everything else unchanged (out-of-range updates are no-ops; the
embedded code only updates in-range indices). -/
def modifyIdx : List β → Nat → (β → β) → List β
  | [], _, _ => []
  | x :: xs, 0, f => f x :: xs
  | x :: xs, n + 1, f => x :: modifyIdx xs n f

/-- `appendUnique` (src/unnamed/part_018 lines 372-380): append `s` when
not already present. -/
def appendUnique (slice : List GoStr) (s : GoStr) : List GoStr :=
  if s ∈ slice then slice else slice ++ [s]

/-- Accumulator pass of `firstKeys`: keep the keys not seen yet, in
order. -/
def firstKeysAux [DecidableEq β] : List β → List β → List β
  | [], _ => []
  | x :: xs, seen =>
    if x ∈ seen then firstKeysAux xs seen else x :: firstKeysAux xs (x :: seen)

/-- First occurrences of the elements of a list, in order: the order in
which distinct keys are first appended to a Go map of groups. -/
def firstKeys [DecidableEq β] (l : List β) : List β := firstKeysAux l []

/-- Stable insertion into a list sorted by non-increasing key: the new
element goes before the first strictly smaller key, hence before every
element it ties with that originally came later. -/
def insertDescBy (key : β → α) (x : β) : List β → List β
  | [] => [x]
  | y :: ys => if key y ≤ key x then x :: y :: ys else y :: insertDescBy key x ys

/-- Stable sort by non-increasing key.  The source sorts with Go's
`sort.Slice` under the strict comparator `key i > key j`.  On ranges of
at most 12 elements `sort.Slice` runs a plain insertion sort, embedded
swap for swap as `goInsertionSort` below and proved equal to this
function (`goInsertionSort_eq_sortDescBy`); beyond that base case
`sort.Slice` is documented as not stable, so this function is one
determinization of its sorted-permutation contract — adequate where a
claim does not depend on the order of tied keys, and used for the tie
order itself only on clusters of at most 12 entries (see
`applyDiversityPenaltyWith` and the surrounding development). -/
def sortDescBy (key : β → α) : List β → List β
  | [] => []
  | x :: xs => insertDescBy key x (sortDescBy key xs)

theorem modifyIdx_length (l : List β) (i : Nat) (f : β → β) :
    (modifyIdx l i f).length = l.length := by
  induction l generalizing i with
  | nil => rfl
  | cons x xs ih =>
    cases i with
    | zero => rfl
    | succ n => simp [modifyIdx, ih]

theorem modifyIdx_getD_ne (l : List β) (i j : Nat) (f : β → β) (d : β) (h : j ≠ i) :
    (modifyIdx l i f).getD j d = l.getD j d := by
  induction l generalizing i j with
  | nil => rfl
  | cons x xs ih =>
    cases i with
    | zero =>
      cases j with
      | zero => exact absurd rfl h
      | succ m => simp [modifyIdx]
    | succ n =>
      cases j with
      | zero => simp [modifyIdx]
      | succ m =>
        simp only [modifyIdx, List.getD_cons_succ]
        exact ih n m (by omega)

theorem modifyIdx_getD_eq (l : List β) (i : Nat) (f : β → β) (d : β) (h : i < l.length) :
    (modifyIdx l i f).getD i d = f (l.getD i d) := by
  induction l generalizing i with
  | nil => simp at h
  | cons x xs ih =>
    cases i with
    | zero => simp [modifyIdx]
    | succ n =>
      simp only [modifyIdx, List.getD_cons_succ]
      exact ih n (by simpa using h)

theorem insertDescBy_perm (key : β → α) (x : β) (l : List β) :
    List.Perm (insertDescBy key x l) (x :: l) := by
  induction l with
  | nil => exact List.Perm.refl _
  | cons y ys ih =>
    unfold insertDescBy
    split
    · exact List.Perm.refl _
    · exact ((ih.cons y).trans (List.Perm.swap x y ys))

theorem sortDescBy_perm (key : β → α) (l : List β) : List.Perm (sortDescBy key l) l := by
  induction l with
  | nil => exact List.Perm.refl _
  | cons x xs ih =>
    exact (insertDescBy_perm key x (sortDescBy key xs)).trans (ih.cons x)

theorem sortDescBy_length (key : β → α) (l : List β) :
    (sortDescBy key l).length = l.length :=
  (sortDescBy_perm key l).length_eq
theorem insertDescBy_mem (key : β → α) (x : β) (l : List β) (z : β) :
    z ∈ insertDescBy key x l ↔ z = x ∨ z ∈ l := by
  rw [(insertDescBy_perm key x l).mem_iff]
  simp

theorem insertDescBy_sorted (key : β → α) (x : β) (l : List β)
    (h : l.Pairwise (fun u v => key v ≤ key u)) :
    (insertDescBy key x l).Pairwise (fun u v => key v ≤ key u) := by
  induction l with
  | nil => simp [insertDescBy]
  | cons y ys ih =>
    unfold insertDescBy
    rcases List.pairwise_cons.mp h with ⟨hy, hys⟩
    split
    · rename_i hxy
      refine List.pairwise_cons.mpr ⟨?_, h⟩
      intro z hz
      rcases List.mem_cons.mp hz with rfl | hz
      · exact hxy
      · exact le_trans (hy z hz) hxy
    · rename_i hxy
      push_neg at hxy
      refine List.pairwise_cons.mpr ⟨?_, ih hys⟩
      intro z hz
      rcases (insertDescBy_mem key x ys z).mp hz with rfl | hz
      · exact le_of_lt hxy
      · exact hy z hz

theorem sortDescBy_sorted (key : β → α) (l : List β) :
    (sortDescBy key l).Pairwise (fun u v => key v ≤ key u) := by
  induction l with
  | nil => simp [sortDescBy]
  | cons x xs ih => exact insertDescBy_sorted key x _ ih

/-- The element a stable non-increasing sort puts first: the earliest
element attaining the maximal key. -/
def firstMaxBy (key : β → α) : List β → Option β
  | [] => none
  | x :: xs =>
    match firstMaxBy key xs with
    | none => some x
    | some m => if key m ≤ key x then some x else some m

theorem firstMaxBy_isSome (key : β → α) (l : List β) (hne : l ≠ []) :
    ∃ m, firstMaxBy key l = some m := by
  cases l with
  | nil => exact absurd rfl hne
  | cons x xs =>
    unfold firstMaxBy
    cases firstMaxBy key xs with
    | none => exact ⟨x, rfl⟩
    | some m0 => by_cases h : key m0 ≤ key x <;> simp [h]

theorem firstMaxBy_max (key : β → α) (l : List β) (m : β)
    (h : firstMaxBy key l = some m) : ∀ e ∈ l, key e ≤ key m := by
  induction l generalizing m with
  | nil => simp
  | cons x xs ih =>
    unfold firstMaxBy at h
    cases hxs : firstMaxBy key xs with
    | none =>
      rw [hxs] at h
      dsimp only at h
      simp only [Option.some.injEq] at h
      subst h
      intro e he
      rcases List.mem_cons.mp he with rfl | he
      · exact le_refl _
      · cases xs with
        | nil => simp at he
        | cons z zs =>
          exfalso
          rcases firstMaxBy_isSome key (z :: zs) (by simp) with ⟨m0, hm0⟩
          rw [hm0] at hxs
          exact Option.noConfusion hxs
    | some m0 =>
      rw [hxs] at h
      dsimp only at h
      intro e he
      by_cases hle : key m0 ≤ key x
      · rw [if_pos hle] at h
        simp only [Option.some.injEq] at h
        subst h
        rcases List.mem_cons.mp he with rfl | he
        · exact le_refl _
        · exact le_trans (ih m0 hxs e he) hle
      · rw [if_neg hle] at h
        simp only [Option.some.injEq] at h
        subst h
        push_neg at hle
        rcases List.mem_cons.mp he with rfl | he
        · exact le_of_lt hle
        · exact ih m0 hxs e he

/-! ## The `sort.Slice` base case (Go `insertionSortCmpFunc`)

`sort.Slice` documents only that it orders the slice by the comparator;
it is documented as not guaranteed to be stable.  Its implementation
(pdqsort since Go 1.19) dispatches ranges of at most 12 elements to a
plain insertion sort over `Less`/`Swap`:

    for i := a + 1; i < b; i++ {
        for j := i; j > a && data.Less(j, j-1); j-- {
            data.Swap(j, j-1)
        }
    }

`listSwap`, `insSortInner` and `goInsertionSort` embed that base case
literally, swap by swap; `goInsertionSort_eq_sortDescBy` below proves it
equal to the stable non-increasing sort `sortDescBy`.  Beyond the base
case only the documented contract — some permutation ordered by the
comparator — is sound to assume; see `applyDiversityPenaltyWith`. -/

namespace UF

/-- One parent-pointer hop; out-of-range nodes are their own parent. -/
def step (p : List Nat) (x : Nat) : Nat := p.getD x x

/-- Iterated parent hops. -/
def iter (p : List Nat) : Nat → Nat → Nat
  | 0, x => x
  | k + 1, x => iter p k (step p x)

/-- A node whose parent is itself. -/
def IsRoot (p : List Nat) (x : Nat) : Prop := step p x = x

/-- The root of the tree containing `x`: enough hops always land there
in a well-formed forest. -/
def rootD (p : List Nat) (x : Nat) : Nat := iter p p.length x

/-- Well-formedness of a parent array: in-range parents, and every chain
reaches a fixpoint within `length` hops. -/
def Wf (p : List Nat) : Prop :=
  (∀ x, x < p.length → step p x < p.length) ∧ ∀ x, IsRoot p (iter p p.length x)

theorem step_ge (p : List Nat) (x : Nat) (h : p.length ≤ x) : step p x = x := by
  unfold step
  rw [List.getD_eq_default]
  exact h

theorem iter_add (p : List Nat) (a b x : Nat) :
    iter p (a + b) x = iter p b (iter p a x) := by
  induction a generalizing x with
  | zero => simp [iter]
  | succ a ih =>
    have : a + 1 + b = (a + b) + 1 := by omega
    rw [this]
    simp only [iter]
    exact ih (step p x)

theorem iter_of_isRoot (p : List Nat) (r : Nat) (h : IsRoot p r) (k : Nat) :
    iter p k r = r := by
  induction k with
  | zero => rfl
  | succ k ih =>
    have h2 : step p r = r := h
    simp only [iter, h2, ih]

theorem iter_stable (p : List Nat) (k m x : Nat) (h : IsRoot p (iter p k x))
    (hkm : k ≤ m) : iter p m x = iter p k x := by
  have : m = k + (m - k) := by omega
  rw [this, iter_add]
  exact iter_of_isRoot p _ h _

theorem rootD_isRoot (p : List Nat) (hwf : Wf p) (x : Nat) : IsRoot p (rootD p x) :=
  hwf.2 x

theorem rootD_eq_of_reach (p : List Nat) (hwf : Wf p) (k x : Nat)
    (h : IsRoot p (iter p k x)) : rootD p x = iter p k x := by
  rcases le_or_lt k p.length with hk | hk
  · exact iter_stable p k p.length x h hk
  · unfold rootD
    exact (iter_stable p p.length k x (hwf.2 x) (le_of_lt hk)).symm

theorem rootD_of_isRoot (p : List Nat) (hwf : Wf p) (x : Nat) (h : IsRoot p x) :
    rootD p x = x :=
  rootD_eq_of_reach p hwf 0 x h

theorem iter_one (p : List Nat) (x : Nat) : iter p 1 x = step p x := rfl

theorem rootD_step (p : List Nat) (hwf : Wf p) (x : Nat) :
    rootD p (step p x) = rootD p x := by
  have h1 : iter p (1 + p.length) x = iter p p.length (step p x) := by
    rw [iter_add, iter_one]
  have h2 : IsRoot p (iter p (1 + p.length) x) := by
    rw [iter_stable p p.length (1 + p.length) x (hwf.2 x) (by omega)]
    exact hwf.2 x
  have h3 : IsRoot p (iter p p.length (step p x)) := by rw [← h1]; exact h2
  calc rootD p (step p x) = iter p p.length (step p x) := rfl
    _ = iter p (1 + p.length) x := h1.symm
    _ = iter p p.length x := iter_stable p p.length (1 + p.length) x (hwf.2 x) (by omega)
    _ = rootD p x := rfl

theorem iter_lt (p : List Nat) (hwf : Wf p) (k x : Nat) (hx : x < p.length) :
    iter p k x < p.length := by
  induction k generalizing x with
  | zero => exact hx
  | succ k ih =>
    simp only [iter]
    exact ih (step p x) (hwf.1 x hx)

theorem rootD_lt (p : List Nat) (hwf : Wf p) (x : Nat) (hx : x < p.length) :
    rootD p x < p.length :=
  iter_lt p hwf p.length x hx

theorem iter_shift (p : List Nat) (a b x : Nat) (h : iter p a x = iter p b x)
    (t : Nat) : iter p (a + t) x = iter p (b + t) x := by
  rw [iter_add, iter_add, h]

/-- In a well-formed forest, every in-range node reaches its root in at
most `length - 1` hops (the nodes along a minimal chain are pairwise
distinct). -/
theorem exists_min_reach (p : List Nat) (hwf : Wf p) (x : Nat) (hx : x < p.length) :
    ∃ k, k + 1 ≤ p.length ∧ IsRoot p (iter p k x) := by
  have hex : ∃ k, IsRoot p (iter p k x) := ⟨p.length, hwf.2 x⟩
  classical
  let K := Nat.find hex
  have hK : IsRoot p (iter p K x) := Nat.find_spec hex
  have hmin : ∀ j < K, ¬ IsRoot p (iter p j x) := fun j hj => Nat.find_min hex hj
  refine ⟨K, ?_, hK⟩
  by_contra hcon
  push_neg at hcon
  have hinj : ∀ a ∈ List.range (K + 1), ∀ b ∈ List.range (K + 1),
      iter p a x = iter p b x → a = b := by
    intro a ha b hb hab
    simp only [List.mem_range] at ha hb
    by_contra hne
    rcases Nat.lt_or_ge a b with hab2 | hab2
    · have h1 := iter_shift p a b x hab (K - b)
      have h2 : IsRoot p (iter p (a + (K - b)) x) := by
        rw [h1]
        have : b + (K - b) = K := by omega
        rw [this]
        exact hK
      exact hmin (a + (K - b)) (by omega) h2
    · have hba : b < a := by omega
      have h1 := iter_shift p b a x hab.symm (K - a)
      have h2 : IsRoot p (iter p (b + (K - a)) x) := by
        rw [h1]
        have : a + (K - a) = K := by omega
        rw [this]
        exact hK
      exact hmin (b + (K - a)) (by omega) h2
  have hnd : ((List.range (K + 1)).map (fun k => iter p k x)).Nodup :=
    (List.nodup_range _).map_on hinj
  have hsub : ((List.range (K + 1)).map (fun k => iter p k x)) ⊆ List.range p.length := by
    intro z hz
    rcases List.mem_map.mp hz with ⟨k, _, rfl⟩
    exact List.mem_range.mpr (iter_lt p hwf k x hx)
  have hle := (hnd.subperm hsub).length_le
  simp only [List.length_map, List.length_range] at hle
  omega

theorem step_set (p : List Nat) (a v b : Nat) :
    step (p.set a v) b = if a = b ∧ a < p.length then v else step p b := by
  induction p generalizing a b with
  | nil => simp [step, List.set]
  | cons h t ih =>
    cases a with
    | zero =>
      cases b with
      | zero => simp [step, List.set, List.getD_cons_zero]
      | succ m => simp [step, List.set, List.getD_cons_succ]
    | succ n =>
      cases b with
      | zero => simp [step, List.set, List.getD_cons_zero]
      | succ m =>
        simp only [List.set, step, List.getD_cons_succ, List.length_cons]
        by_cases hm : m < t.length
        · have hm2 : m < (t.set n v).length := by simpa using hm
          rw [List.getD_eq_getElem _ _ hm2, List.getD_eq_getElem _ _ hm]
          by_cases hnm : n = m
          · subst hnm
            rw [if_pos (by omega : (n + 1 = n + 1 ∧ n + 1 < t.length + 1))]
            simp [List.getElem_set]
          · rw [if_neg (by omega : ¬ (n + 1 = m + 1 ∧ n + 1 < t.length + 1))]
            simp [List.getElem_set, hnm]
        · rw [List.getD_eq_default _ _ (by simp; omega), List.getD_eq_default _ _ (by omega)]
          rw [if_neg (by omega : ¬ (n + 1 = m + 1 ∧ n + 1 < t.length + 1))]

end UF
namespace UF

theorem set_oob (p : List Nat) (x v : Nat) (h : p.length ≤ x) : p.set x v = p := by
  induction p generalizing x with
  | nil => rfl
  | cons a t ih =>
    cases x with
    | zero => simp at h
    | succ n =>
      simp only [List.set]
      rw [ih n (by simpa using h)]

/-- Pointing a node directly at its root (path compression) keeps the
forest well-formed and does not change any root. -/
theorem set_root_preserve (p : List Nat) (hwf : Wf p) (x : Nat) :
    Wf (p.set x (rootD p x)) ∧ (p.set x (rootD p x)).length = p.length
      ∧ ∀ y, rootD (p.set x (rootD p x)) y = rootD p y := by
  rcases Nat.lt_or_ge x p.length with hx | hx
  · set r := rootD p x with hr
    set q := p.set x r with hq
    have hqlen : q.length = p.length := by simp [hq]
    have hr_root : IsRoot p r := rootD_isRoot p hwf x
    have hr_lt : r < p.length := rootD_lt p hwf x hx
    have hstep : ∀ z, step q z = if x = z ∧ x < p.length then r else step p z := by
      intro z; exact step_set p x r z
    have hroot_keep : ∀ z, IsRoot p z → IsRoot q z := by
      intro z hz
      by_cases hzx : z = x
      · subst hzx
        have : r = z := by
          rw [hr]
          exact rootD_of_isRoot p hwf _ hz
        unfold IsRoot
        rw [hstep z, if_pos ⟨rfl, hx⟩, this]
      · unfold IsRoot
        rw [hstep z, if_neg (by tauto)]
        exact hz
    have sub : ∀ j y, IsRoot p (iter p j y) →
        ∃ k, k ≤ j ∧ iter q k y = rootD p y ∧ IsRoot q (iter q k y) := by
      intro j
      induction j with
      | zero =>
        intro y hy
        refine ⟨0, le_refl _, ?_, ?_⟩
        · exact (rootD_of_isRoot p hwf y hy).symm
        · exact hroot_keep y hy
      | succ j ih =>
        intro y hy
        by_cases hyroot : IsRoot p y
        · refine ⟨0, by omega, (rootD_of_isRoot p hwf y hyroot).symm, hroot_keep y hyroot⟩
        · by_cases hyx : y = x
          · subst hyx
            refine ⟨1, by omega, ?_, ?_⟩
            · rw [iter_one, hstep y, if_pos ⟨rfl, hx⟩, hr]
            · rw [iter_one, hstep y, if_pos ⟨rfl, hx⟩]
              have hrny : r ≠ y := by
                intro hcon
                apply hyroot
                rw [← hcon]
                exact hr_root
              apply hroot_keep
              exact hr_root
          · have hpy : IsRoot p (iter p j (step p y)) := hy
            rcases ih (step p y) hpy with ⟨k, hk, hiter, hroot⟩
            refine ⟨k + 1, by omega, ?_, ?_⟩
            · have hsq : step q y = step p y := by
                rw [hstep y, if_neg (by tauto)]
              show iter q k (step q y) = rootD p y
              rw [hsq, hiter]
              exact rootD_step p hwf y
            · have hsq : step q y = step p y := by
                rw [hstep y, if_neg (by tauto)]
              show IsRoot q (iter q k (step q y))
              rw [hsq]
              exact hroot
    have hmain : ∀ y, rootD q y = rootD p y ∧ IsRoot q (iter q q.length y) := by
      intro y
      rcases Nat.lt_or_ge y p.length with hy | hy
      · rcases sub p.length y (hwf.2 y) with ⟨k, hk, hiter, hroot⟩
        have hst : iter q q.length y = iter q k y := by
          apply iter_stable q k q.length y hroot
          omega
        constructor
        · unfold rootD
          rw [hst, hiter]
          rfl
        · rw [hst]; exact hroot
      · have hqy : step q y = y := step_ge q y (by omega)
        have hpy : step p y = y := step_ge p y hy
        have h1 : ∀ k, iter q k y = y := fun k => iter_of_isRoot q y hqy k
        have h2 : ∀ k, iter p k y = y := fun k => iter_of_isRoot p y hpy k
        constructor
        · unfold rootD; rw [h1, h2]
        · rw [h1]; exact hqy
    refine ⟨⟨?_, fun y => (hmain y).2⟩, hqlen, fun y => (hmain y).1⟩
    · intro z hz
      rw [hqlen] at hz
      rw [hqlen, hstep z]
      by_cases hc : x = z ∧ x < p.length
      · rw [if_pos hc]; exact hr_lt
      · rw [if_neg hc]; exact hwf.1 z hz
  · rw [set_oob p x _ hx]
    exact ⟨hwf, rfl, fun _ => rfl⟩

/-- The recursive `find` with path compression (src/unnamed/part_018
lines 305-311), with the recursion depth as explicit fuel: follow the
parent pointer, then point the node at the returned root. -/
def findAux : Nat → List Nat → Nat → List Nat × Nat
  | 0, p, x => (p, x)
  | fuel + 1, p, x =>
    if step p x ≠ x then
      let pr := findAux fuel p (step p x)
      (pr.1.set x pr.2, pr.2)
    else (p, x)

theorem findAux_spec (fuel : Nat) (p : List Nat) (x : Nat) (hwf : Wf p)
    (hreach : IsRoot p (iter p fuel x)) :
    (findAux fuel p x).2 = rootD p x
      ∧ Wf (findAux fuel p x).1
      ∧ (findAux fuel p x).1.length = p.length
      ∧ ∀ y, rootD (findAux fuel p x).1 y = rootD p y := by
  induction fuel generalizing x with
  | zero =>
    exact ⟨(rootD_of_isRoot p hwf x hreach).symm, hwf, rfl, fun _ => rfl⟩
  | succ fuel ih =>
    by_cases hroot : step p x = x
    · unfold findAux
      rw [if_neg (by simpa using hroot)]
      exact ⟨(rootD_of_isRoot p hwf x hroot).symm, hwf, rfl, fun _ => rfl⟩
    · have hreach2 : IsRoot p (iter p fuel (step p x)) := hreach
      rcases ih (step p x) hreach2 with ⟨h2, hwf2, hlen2, hroots2⟩
      have hval : (findAux fuel p (step p x)).2 = rootD p x := by
        rw [h2]; exact rootD_step p hwf x
      have hx_root_pr : (findAux fuel p (step p x)).2
          = rootD (findAux fuel p (step p x)).1 x := by
        rw [hval, hroots2 x]
      rcases set_root_preserve (findAux fuel p (step p x)).1 hwf2 x with ⟨hwf3, hlen3, hroots3⟩
      unfold findAux
      rw [if_pos (by simpa using hroot)]
      refine ⟨hval, ?_, ?_, ?_⟩
      · show Wf ((findAux fuel p (step p x)).1.set x (findAux fuel p (step p x)).2)
        rw [hx_root_pr]
        exact hwf3
      · show ((findAux fuel p (step p x)).1.set x (findAux fuel p (step p x)).2).length = p.length
        rw [hx_root_pr, hlen3, hlen2]
      · intro y
        show rootD ((findAux fuel p (step p x)).1.set x (findAux fuel p (step p x)).2) y
          = rootD p y
        rw [hx_root_pr, hroots3 y, hroots2 y]

end UF
namespace UF

/-- Linking the root `ra` under the root `rb` keeps the forest
well-formed and remaps exactly the class of `ra` onto `rb`. -/
theorem set_union_preserve (p : List Nat) (hwf : Wf p) (ra rb : Nat)
    (hra_root : IsRoot p ra) (hrb_root : IsRoot p rb)
    (hra : ra < p.length) (hrb : rb < p.length) (hne : ra ≠ rb) :
    Wf (p.set ra rb) ∧ (p.set ra rb).length = p.length
      ∧ ∀ y, rootD (p.set ra rb) y
          = if rootD p y = ra then rb else rootD p y := by
  set q := p.set ra rb with hq
  have hqlen : q.length = p.length := by simp [hq]
  have hstep : ∀ z, step q z = if ra = z ∧ ra < p.length then rb else step p z := by
    intro z; exact step_set p ra rb z
  have hrb_root_q : IsRoot q rb := by
    unfold IsRoot
    rw [hstep rb, if_neg (by tauto)]
    exact hrb_root
  have hroot_keep : ∀ z, IsRoot p z → z ≠ ra → IsRoot q z := by
    intro z hz hzra
    unfold IsRoot
    rw [hstep z, if_neg (by tauto)]
    exact hz
  have sub : ∀ j y, IsRoot p (iter p j y) →
      ∃ k, k ≤ j + 1 ∧ iter q k y = (if rootD p y = ra then rb else rootD p y)
        ∧ IsRoot q (iter q k y) := by
    intro j
    induction j with
    | zero =>
      intro y hy
      have hry : rootD p y = y := rootD_of_isRoot p hwf y hy
      by_cases hyra : y = ra
      · subst hyra
        refine ⟨1, by omega, ?_, ?_⟩
        · rw [iter_one, hstep y, if_pos ⟨rfl, hra⟩, hry, if_pos rfl]
        · rw [iter_one, hstep y, if_pos ⟨rfl, hra⟩]
          exact hrb_root_q
      · refine ⟨0, by omega, ?_, ?_⟩
        · show y = _
          rw [hry, if_neg hyra]
        · exact hroot_keep y hy hyra
    | succ j ih =>
      intro y hy
      by_cases hyroot : IsRoot p y
      · have hry : rootD p y = y := rootD_of_isRoot p hwf y hyroot
        by_cases hyra : y = ra
        · subst hyra
          refine ⟨1, by omega, ?_, ?_⟩
          · rw [iter_one, hstep y, if_pos ⟨rfl, hra⟩, hry, if_pos rfl]
          · rw [iter_one, hstep y, if_pos ⟨rfl, hra⟩]
            exact hrb_root_q
        · refine ⟨0, by omega, ?_, hroot_keep y hyroot hyra⟩
          show y = _
          rw [hry, if_neg hyra]
      · have hyra : y ≠ ra := by
          intro hcon
          exact hyroot (hcon ▸ hra_root)
        have hsq : step q y = step p y := by
          rw [hstep y, if_neg (by tauto)]
        have hpy : IsRoot p (iter p j (step p y)) := hy
        rcases ih (step p y) hpy with ⟨k, hk, hiter, hroot⟩
        refine ⟨k + 1, by omega, ?_, ?_⟩
        · show iter q k (step q y) = _
          rw [hsq, hiter, rootD_step p hwf y]
        · show IsRoot q (iter q k (step q y))
          rw [hsq]
          exact hroot
  have hmain : ∀ y, (rootD q y = if rootD p y = ra then rb else rootD p y)
      ∧ IsRoot q (iter q q.length y) := by
    intro y
    rcases Nat.lt_or_ge y p.length with hy | hy
    · rcases exists_min_reach p hwf y hy with ⟨j, hj, hjroot⟩
      rcases sub j y hjroot with ⟨k, hk, hiter, hroot⟩
      have hst : iter q q.length y = iter q k y := by
        apply iter_stable q k q.length y hroot
        omega
      constructor
      · show rootD q y = _
        unfold rootD
        rw [hst, hiter]
        rfl
      · rw [hst]; exact hroot
    · have hqy : step q y = y := step_ge q y (by omega)
      have hpy : step p y = y := step_ge p y hy
      have h1 : ∀ k, iter q k y = y := fun k => iter_of_isRoot q y hqy k
      have h2 : ∀ k, iter p k y = y := fun k => iter_of_isRoot p y hpy k
      constructor
      · show rootD q y = _
        unfold rootD
        rw [h1, h2, if_neg (by omega)]
      · rw [h1]; exact hqy
  refine ⟨⟨?_, fun y => (hmain y).2⟩, hqlen, fun y => (hmain y).1⟩
  · intro z hz
    rw [hqlen] at hz
    rw [hqlen, hstep z]
    by_cases hc : ra = z ∧ ra < p.length
    · rw [if_pos hc]; exact hrb
    · rw [if_neg hc]; exact hwf.1 z hz

/-- `union` (src/unnamed/part_018 lines 312-317): find both roots (with
path compression) and point the first root at the second when they
differ. -/
def unionF (p : List Nat) (a b : Nat) : List Nat :=
  let pa := findAux p.length p a
  let pb := findAux pa.1.length pa.1 b
  if pa.2 ≠ pb.2 then pb.1.set pa.2 pb.2 else pb.1

theorem unionF_spec (p : List Nat) (a b : Nat) (hwf : Wf p)
    (ha : a < p.length) (hb : b < p.length) :
    Wf (unionF p a b) ∧ (unionF p a b).length = p.length
      ∧ ∀ y, rootD (unionF p a b) y
          = if rootD p y = rootD p a then rootD p b else rootD p y := by
  obtain ⟨ha2, hawf, halen, haroots⟩ := findAux_spec p.length p a hwf (hwf.2 a)
  obtain ⟨hb2, hbwf, hblen, hbroots⟩ :=
    findAux_spec (findAux p.length p a).1.length (findAux p.length p a).1 b hawf (hawf.2 b)
  simp only [unionF]
  set pa := findAux p.length p a with hpa
  set pb := findAux pa.1.length pa.1 b with hpb
  have hra : pa.2 = rootD p a := ha2
  have hrb : pb.2 = rootD p b := by rw [hb2, haroots b]
  have hlenb : pb.1.length = p.length := by rw [hblen, halen]
  have hrootsb : ∀ y, rootD pb.1 y = rootD p y := by
    intro y; rw [hbroots y, haroots y]
  by_cases heq : pa.2 = pb.2
  · rw [if_neg (by simpa using heq)]
    refine ⟨hbwf, hlenb, ?_⟩
    intro y
    rw [hrootsb y]
    by_cases hc : rootD p y = rootD p a
    · rw [if_pos hc, hc, ← hra, heq, hrb]
    · rw [if_neg hc]
  · have hra_root : IsRoot pb.1 pa.2 := by
      have h1 : rootD pb.1 pa.2 = pa.2 := by
        rw [hrootsb, hra]
        exact rootD_of_isRoot p hwf _ (rootD_isRoot p hwf a)
      rw [← h1]
      exact rootD_isRoot pb.1 hbwf pa.2
    have hrb_root : IsRoot pb.1 pb.2 := by
      have h1 : rootD pb.1 pb.2 = pb.2 := by
        rw [hrootsb, hrb]
        exact rootD_of_isRoot p hwf _ (rootD_isRoot p hwf b)
      rw [← h1]
      exact rootD_isRoot pb.1 hbwf pb.2
    have hra_lt : pa.2 < pb.1.length := by
      rw [hlenb, hra]
      exact rootD_lt p hwf a ha
    have hrb_lt : pb.2 < pb.1.length := by
      rw [hlenb, hrb]
      exact rootD_lt p hwf b hb
    rcases set_union_preserve pb.1 hbwf pa.2 pb.2 hra_root hrb_root hra_lt hrb_lt heq
      with ⟨hwf2, hlen2, hroots2⟩
    rw [if_pos (by simpa using heq)]
    refine ⟨hwf2, by rw [hlen2, hlenb], ?_⟩
    intro y
    rw [hroots2 y, hrootsb y, hra, hrb]

theorem wf_range (n : Nat) : Wf (List.range n) := by
  have hstep : ∀ x, step (List.range n) x = x := by
    intro x
    unfold step
    rcases Nat.lt_or_ge x n with hx | hx
    · rw [List.getD_eq_getElem _ _ (by simpa using hx)]
      simp
    · rw [List.getD_eq_default]
      simpa using hx
  constructor
  · intro x hx
    rw [hstep x]
    simpa using hx
  · intro x
    have : ∀ k, iter (List.range n) k x = x := by
      intro k
      exact iter_of_isRoot (List.range n) x (hstep x) k
    rw [this]
    exact hstep x

end UF
/-! ## Equivalence-closure toolkit for the clustering claims -/

theorem eqvGen_bot {β : Type} (i j : β) :
    Relation.EqvGen (fun _ _ => False) i j ↔ i = j := by
  constructor
  · intro h
    induction h with
    | rel x y h => exact h.elim
    | refl x => rfl
    | symm x y _ ih => exact ih.symm
    | trans x y z _ _ ih1 ih2 => exact ih1.trans ih2
  · rintro rfl
    exact Relation.EqvGen.refl i

theorem eqvGen_congr {β : Type} {R S : β → β → Prop} (h : ∀ x y, R x y ↔ S x y)
    (x y : β) : Relation.EqvGen R x y ↔ Relation.EqvGen S x y :=
  ⟨Relation.EqvGen.mono (fun a b hab => (h a b).mp hab),
   Relation.EqvGen.mono (fun a b hab => (h a b).mpr hab)⟩

/-- Characterization of the equivalence closure after adjoining the
single pair `(a, b)` to a relation. -/
theorem eqvGen_add_iff {β : Type} (R : β → β → Prop) (a b x y : β) :
    Relation.EqvGen (fun u v => R u v ∨ (u = a ∧ v = b)) x y
      ↔ Relation.EqvGen R x y
        ∨ (Relation.EqvGen R x a ∧ Relation.EqvGen R b y)
        ∨ (Relation.EqvGen R x b ∧ Relation.EqvGen R a y) := by
  constructor
  · intro h
    induction h with
    | rel u v huv =>
      rcases huv with huv | ⟨rfl, rfl⟩
      · exact Or.inl (Relation.EqvGen.rel _ _ huv)
      · exact Or.inr (Or.inl ⟨Relation.EqvGen.refl _, Relation.EqvGen.refl _⟩)
    | refl u => exact Or.inl (Relation.EqvGen.refl _)
    | symm u v _ ih =>
      rcases ih with h1 | ⟨h1, h2⟩ | ⟨h1, h2⟩
      · exact Or.inl (Relation.EqvGen.symm _ _ h1)
      · exact Or.inr (Or.inr ⟨Relation.EqvGen.symm _ _ h2, Relation.EqvGen.symm _ _ h1⟩)
      · exact Or.inr (Or.inl ⟨Relation.EqvGen.symm _ _ h2, Relation.EqvGen.symm _ _ h1⟩)
    | trans u v w _ _ ih1 ih2 =>
      rcases ih1 with h1 | ⟨h1, h2⟩ | ⟨h1, h2⟩ <;>
        rcases ih2 with h3 | ⟨h3, h4⟩ | ⟨h3, h4⟩
      · exact Or.inl (Relation.EqvGen.trans _ _ _ h1 h3)
      · exact Or.inr (Or.inl ⟨Relation.EqvGen.trans _ _ _ h1 h3, h4⟩)
      · exact Or.inr (Or.inr ⟨Relation.EqvGen.trans _ _ _ h1 h3, h4⟩)
      · exact Or.inr (Or.inl ⟨h1, Relation.EqvGen.trans _ _ _ h2 h3⟩)
      · exact Or.inl (Relation.EqvGen.trans _ _ _
          (Relation.EqvGen.trans _ _ _ h1 (Relation.EqvGen.symm _ _ h3))
          (Relation.EqvGen.trans _ _ _ (Relation.EqvGen.symm _ _ h2) h4))
      · exact Or.inl (Relation.EqvGen.trans _ _ _ h1 h4)
      · exact Or.inr (Or.inr ⟨h1, Relation.EqvGen.trans _ _ _ h2 h3⟩)
      · exact Or.inl (Relation.EqvGen.trans _ _ _ h1 h4)
      · exact Or.inl (Relation.EqvGen.trans _ _ _
          (Relation.EqvGen.trans _ _ _ h1 (Relation.EqvGen.symm _ _ h3))
          (Relation.EqvGen.trans _ _ _ (Relation.EqvGen.symm _ _ h2) h4))
  · intro h
    have hmono : ∀ u v, Relation.EqvGen R u v
        → Relation.EqvGen (fun u v => R u v ∨ (u = a ∧ v = b)) u v :=
      fun u v => Relation.EqvGen.mono (fun s t hst => Or.inl hst)
    have hab : Relation.EqvGen (fun u v => R u v ∨ (u = a ∧ v = b)) a b :=
      Relation.EqvGen.rel _ _ (Or.inr ⟨rfl, rfl⟩)
    rcases h with h1 | ⟨h1, h2⟩ | ⟨h1, h2⟩
    · exact hmono _ _ h1
    · exact Relation.EqvGen.trans _ _ _
        (Relation.EqvGen.trans _ _ _ (hmono _ _ h1) hab) (hmono _ _ h2)
    · exact Relation.EqvGen.trans _ _ _
        (Relation.EqvGen.trans _ _ _ (hmono _ _ h1) (Relation.EqvGen.symm _ _ hab))
        (hmono _ _ h2)

theorem transGen_symm {β : Type} {r : β → β → Prop} (hsym : ∀ a b, r a b → r b a)
    {x y : β} (h : Relation.TransGen r x y) : Relation.TransGen r y x := by
  induction h with
  | single hxy => exact Relation.TransGen.single (hsym _ _ hxy)
  | tail _ hyz ih => exact Relation.TransGen.head (hsym _ _ hyz) ih
/-! ## The pair loop of `groupBySimlarity` (part_018 lines 319-325) -/

/-- The pairs `(i, j)` with `i < j < n`, in the traversal order of the
nested loops. -/
def pairList (n : Nat) : List (Nat × Nat) :=
  ((List.range n).flatMap (fun i => (List.range n).map (fun j => (i, j)))).filter
    (fun ij => decide (ij.1 < ij.2))

theorem pairList_mem (n : Nat) (a b : Nat) :
    (a, b) ∈ pairList n ↔ a < n ∧ b < n ∧ a < b := by
  unfold pairList
  simp only [List.mem_filter, List.mem_flatMap, List.mem_map, List.mem_range,
    decide_eq_true_eq]
  constructor
  · rintro ⟨⟨i, hi, j, hj, heq⟩, hab⟩
    obtain ⟨rfl, rfl⟩ : i = a ∧ j = b := by
      constructor <;> [exact (Prod.mk.injEq _ _ _ _ ▸ heq).1; exact (Prod.mk.injEq _ _ _ _ ▸ heq).2]
    exact ⟨hi, hj, hab⟩
  · rintro ⟨ha, hb, hab⟩
    exact ⟨⟨a, ha, b, hb, rfl⟩, hab⟩

/-- The union step of the pair loop: union the pair when the normalized
values are similar. -/
def pairStep (norms : List GoStr) (p : List Nat) (ij : Nat × Nat) : List Nat :=
  if areSimilar (norms.getD ij.1 []) (norms.getD ij.2 []) then UF.unionF p ij.1 ij.2
  else p

/-- The parent array after the double loop of `groupBySimlarity` has
examined every pair. -/
def simParents (norms : List GoStr) : List Nat :=
  (pairList norms.length).foldl (pairStep norms) (List.range norms.length)

/-- The relation "this pair was examined and found similar", over a list
of examined pairs. -/
def pairRel (norms : List GoStr) (L : List (Nat × Nat)) (x y : Nat) : Prop :=
  (x, y) ∈ L ∧ areSimilar (norms.getD x []) (norms.getD y []) = true

theorem foldl_pairStep_inv (norms : List GoStr) (L : List (Nat × Nat))
    (p : List Nat) (R : Nat → Nat → Prop) (hwf : UF.Wf p)
    (hlen : p.length = norms.length)
    (hbound : ∀ ij ∈ L, ij.1 < p.length ∧ ij.2 < p.length)
    (hinv : ∀ x y, UF.rootD p x = UF.rootD p y ↔ Relation.EqvGen R x y) :
    UF.Wf (L.foldl (pairStep norms) p)
      ∧ (L.foldl (pairStep norms) p).length = norms.length
      ∧ ∀ x y, UF.rootD (L.foldl (pairStep norms) p) x
            = UF.rootD (L.foldl (pairStep norms) p) y
          ↔ Relation.EqvGen (fun u v => R u v ∨ pairRel norms L u v) x y := by
  induction L generalizing p R with
  | nil =>
    refine ⟨hwf, hlen, ?_⟩
    intro x y
    rw [List.foldl_nil, hinv x y]
    apply eqvGen_congr
    intro u v
    simp [pairRel]
  | cons ij L ih =>
    have hij := hbound ij (List.mem_cons_self _ _)
    by_cases hsim : areSimilar (norms.getD ij.1 []) (norms.getD ij.2 []) = true
    · have hstep : pairStep norms p ij = UF.unionF p ij.1 ij.2 := by
        unfold pairStep
        rw [if_pos hsim]
      rcases UF.unionF_spec p ij.1 ij.2 hwf hij.1 hij.2 with ⟨hwf2, hlen2, hroots2⟩
      have hinv2 : ∀ x y, UF.rootD (UF.unionF p ij.1 ij.2) x
            = UF.rootD (UF.unionF p ij.1 ij.2) y
          ↔ Relation.EqvGen (fun u v => R u v ∨ (u = ij.1 ∧ v = ij.2)) x y := by
        intro x y
        rw [hroots2 x, hroots2 y, eqvGen_add_iff]
        by_cases hx : UF.rootD p x = UF.rootD p ij.1 <;>
          by_cases hy : UF.rootD p y = UF.rootD p ij.1
        · rw [if_pos hx, if_pos hy]
          constructor
          · intro _
            exact Or.inl ((hinv x y).mp (hx.trans hy.symm))
          · intro _
            rfl
        · rw [if_pos hx, if_neg hy]
          constructor
          · intro hby
            refine Or.inr (Or.inl ⟨(hinv x ij.1).mp hx, (hinv ij.2 y).mp hby⟩)
          · rintro (h1 | ⟨h1, h2⟩ | ⟨h1, h2⟩)
            · exact absurd (((hinv x y).mpr h1).symm.trans hx) hy
            · exact (hinv ij.2 y).mpr h2
            · exact absurd ((hinv y ij.1).mpr (Relation.EqvGen.symm _ _ h2)) hy
        · rw [if_neg hx, if_pos hy]
          constructor
          · intro hxb
            refine Or.inr (Or.inr ⟨(hinv x ij.2).mp hxb, (hinv ij.1 y).mp hy.symm⟩)
          · rintro (h1 | ⟨h1, h2⟩ | ⟨h1, h2⟩)
            · exact absurd (((hinv x y).mpr h1).trans hy) hx
            · exact absurd ((hinv x ij.1).mpr h1) hx
            · exact (hinv x ij.2).mpr h1
        · rw [if_neg hx, if_neg hy]
          constructor
          · intro hxy
            exact Or.inl ((hinv x y).mp hxy)
          · rintro (h1 | ⟨h1, h2⟩ | ⟨h1, h2⟩)
            · exact (hinv x y).mpr h1
            · exact absurd ((hinv x ij.1).mpr h1) hx
            · exact absurd ((hinv y ij.1).mpr (Relation.EqvGen.symm _ _ h2)) hy
      have hbound2 : ∀ kl ∈ L, kl.1 < (UF.unionF p ij.1 ij.2).length
          ∧ kl.2 < (UF.unionF p ij.1 ij.2).length := by
        intro kl hkl
        rw [hlen2]
        exact hbound kl (List.mem_cons_of_mem _ hkl)
      rcases ih (UF.unionF p ij.1 ij.2) (fun u v => R u v ∨ (u = ij.1 ∧ v = ij.2))
        hwf2 (hlen2.trans hlen) hbound2 hinv2 with ⟨hwf3, hlen3, hinv3⟩
      rw [List.foldl_cons, hstep]
      refine ⟨hwf3, hlen3, ?_⟩
      intro x y
      rw [hinv3 x y]
      apply eqvGen_congr
      intro u v
      unfold pairRel
      simp only [List.mem_cons]
      constructor
      · rintro ((h | ⟨rfl, rfl⟩) | ⟨hm, hs⟩)
        · exact Or.inl h
        · exact Or.inr ⟨Or.inl rfl, hsim⟩
        · exact Or.inr ⟨Or.inr hm, hs⟩
      · rintro (h | ⟨hm | hm, hs⟩)
        · exact Or.inl (Or.inl h)
        · rcases Prod.mk.injEq _ _ _ _ ▸ hm with h2
          have h3 : u = ij.1 ∧ v = ij.2 := by
            constructor
            · exact congrArg Prod.fst hm
            · exact congrArg Prod.snd hm
          exact Or.inl (Or.inr h3)
        · exact Or.inr ⟨hm, hs⟩
    · have hstep : pairStep norms p ij = p := by
        unfold pairStep
        rw [if_neg hsim]
      have hbound2 : ∀ kl ∈ L, kl.1 < p.length ∧ kl.2 < p.length :=
        fun kl hkl => hbound kl (List.mem_cons_of_mem _ hkl)
      rcases ih p R hwf hlen hbound2 hinv with ⟨hwf3, hlen3, hinv3⟩
      rw [List.foldl_cons, hstep]
      refine ⟨hwf3, hlen3, ?_⟩
      intro x y
      rw [hinv3 x y]
      apply eqvGen_congr
      intro u v
      unfold pairRel
      simp only [List.mem_cons]
      constructor
      · rintro (h | ⟨hm, hs⟩)
        · exact Or.inl h
        · exact Or.inr ⟨Or.inr hm, hs⟩
      · rintro (h | ⟨hm | hm, hs⟩)
        · exact Or.inl h
        · exfalso
          have h1 : u = ij.1 := congrArg Prod.fst hm
          have h2 : v = ij.2 := congrArg Prod.snd hm
          rw [h1, h2] at hs
          exact hsim hs
        · exact Or.inr ⟨hm, hs⟩
namespace UF

theorem step_range (n x : Nat) : step (List.range n) x = x := by
  unfold step
  rcases Nat.lt_or_ge x n with hx | hx
  · rw [List.getD_eq_getElem _ _ (by simpa using hx)]
    simp
  · rw [List.getD_eq_default]
    simpa using hx

theorem rootD_range (n x : Nat) : rootD (List.range n) x = x := by
  unfold rootD
  exact iter_of_isRoot (List.range n) x (step_range n x) _

end UF

theorem simParents_spec (norms : List GoStr) :
    UF.Wf (simParents norms) ∧ (simParents norms).length = norms.length
      ∧ ∀ x y, UF.rootD (simParents norms) x = UF.rootD (simParents norms) y
          ↔ Relation.EqvGen (pairRel norms (pairList norms.length)) x y := by
  have hbound : ∀ ij ∈ pairList norms.length,
      ij.1 < (List.range norms.length).length ∧ ij.2 < (List.range norms.length).length := by
    intro ij hij
    cases ij with
    | mk a b =>
      rcases (pairList_mem norms.length a b).mp hij with ⟨ha, hb, _⟩
      simpa using ⟨ha, hb⟩
  have hinv0 : ∀ x y, UF.rootD (List.range norms.length) x
        = UF.rootD (List.range norms.length) y
      ↔ Relation.EqvGen (fun _ _ => False) x y := by
    intro x y
    rw [UF.rootD_range, UF.rootD_range]
    exact (eqvGen_bot x y).symm
  rcases foldl_pairStep_inv norms (pairList norms.length) (List.range norms.length)
    (fun _ _ => False) (UF.wf_range _) (by simp) hbound hinv0 with ⟨hwf, hlen, hinv⟩
  refine ⟨hwf, hlen, ?_⟩
  intro x y
  unfold simParents
  rw [hinv x y]
  apply eqvGen_congr
  intro u v
  simp

/-- The similarity relation restricted to the item indices, as the claim
reads it. -/
def simRel (norms : List GoStr) (u v : Nat) : Prop :=
  u < norms.length ∧ v < norms.length
    ∧ areSimilar (norms.getD u []) (norms.getD v []) = true

theorem simRel_symm (norms : List GoStr) (u v : Nat) (h : simRel norms u v) :
    simRel norms v u :=
  ⟨h.2.1, h.1, by rw [areSimilar_comm]; exact h.2.2⟩

theorem areSimilar_refl (a : GoStr) : areSimilar a a = true := by
  unfold areSimilar
  rw [if_pos rfl]

theorem simRel_to_eqvGen (norms : List GoStr) (u v : Nat) (h : simRel norms u v) :
    Relation.EqvGen (pairRel norms (pairList norms.length)) u v := by
  rcases h with ⟨hu, hv, hs⟩
  rcases Nat.lt_trichotomy u v with hlt | rfl | hgt
  · exact Relation.EqvGen.rel _ _ ⟨(pairList_mem _ _ _).mpr ⟨hu, hv, hlt⟩, hs⟩
  · exact Relation.EqvGen.refl u
  · refine Relation.EqvGen.symm _ _ (Relation.EqvGen.rel _ _
      ⟨(pairList_mem _ _ _).mpr ⟨hv, hu, hgt⟩, ?_⟩)
    rw [areSimilar_comm]
    exact hs

theorem eqvGen_pairRel_cases (norms : List GoStr) (x y : Nat)
    (h : Relation.EqvGen (pairRel norms (pairList norms.length)) x y) :
    x = y ∨ Relation.TransGen (simRel norms) x y := by
  induction h with
  | rel u v huv =>
    rcases huv with ⟨hmem, hsim⟩
    rcases (pairList_mem _ _ _).mp hmem with ⟨hu, hv, _⟩
    exact Or.inr (Relation.TransGen.single ⟨hu, hv, hsim⟩)
  | refl u => exact Or.inl rfl
  | symm u v _ ih =>
    rcases ih with rfl | ht
    · exact Or.inl rfl
    · exact Or.inr (transGen_symm (simRel_symm norms) ht)
  | trans u v w _ _ ih1 ih2 =>
    rcases ih1 with rfl | ht1
    · exact ih2
    · rcases ih2 with rfl | ht2
      · exact Or.inr ht1
      · exact Or.inr (ht1.trans ht2)

theorem transGen_simRel_to_eqvGen (norms : List GoStr) (x y : Nat)
    (h : Relation.TransGen (simRel norms) x y) :
    Relation.EqvGen (pairRel norms (pairList norms.length)) x y := by
  induction h with
  | single h1 => exact simRel_to_eqvGen norms _ _ h1
  | tail _ h1 ih => exact Relation.EqvGen.trans _ _ _ ih (simRel_to_eqvGen norms _ _ h1)

/-- Root equality in the final parent array captures exactly the
transitive closure of the similarity relation. -/
theorem sameRoot_iff_transGen (norms : List GoStr) (x y : Nat)
    (hx : x < norms.length) :
    UF.rootD (simParents norms) x = UF.rootD (simParents norms) y
      ↔ Relation.TransGen (simRel norms) x y := by
  rw [(simParents_spec norms).2.2 x y]
  constructor
  · intro h
    rcases eqvGen_pairRel_cases norms x y h with rfl | ht
    · exact Relation.TransGen.single ⟨hx, hx, areSimilar_refl _⟩
    · exact ht
  · exact transGen_simRel_to_eqvGen norms x y
/-! ## Clusters (`indexedEntry` and `groupBySimlarity`, part_018 lines 134-139 and 296-338) -/

/-- `indexedEntry` (part_018 lines 134-139): position in the entry list,
raw and normalized primary value, algorithmic score. -/
structure IndexedEntry (α : Type) where
  idx : Nat
  rawValue : GoStr
  normValue : GoStr
  algoScore : α
  deriving DecidableEq, Repr

variable {α : Type} [LinearOrderedField α]

/-- Zero value of `IndexedEntry`, the (unreachable) default of list
indexing. -/
def defaultIndexedEntry : IndexedEntry α := ⟨0, [], [], 0⟩

theorem firstKeysAux_mem {β : Type} [DecidableEq β] (l : List β) :
    ∀ (seen : List β) (y : β), y ∈ firstKeysAux l seen ↔ y ∈ l ∧ y ∉ seen := by
  induction l with
  | nil => intro seen y; simp [firstKeysAux]
  | cons x xs ih =>
    intro seen y
    unfold firstKeysAux
    by_cases hx : x ∈ seen
    · rw [if_pos hx, ih seen y]
      constructor
      · rintro ⟨h1, h2⟩
        exact ⟨List.mem_cons_of_mem _ h1, h2⟩
      · rintro ⟨h1, h2⟩
        rcases List.mem_cons.mp h1 with rfl | h1
        · exact absurd hx h2
        · exact ⟨h1, h2⟩
    · rw [if_neg hx]
      constructor
      · intro h
        rcases List.mem_cons.mp h with rfl | h
        · exact ⟨List.mem_cons_self _ _, hx⟩
        · rcases (ih (x :: seen) y).mp h with ⟨h1, h2⟩
          exact ⟨List.mem_cons_of_mem _ h1, fun hc => h2 (List.mem_cons_of_mem _ hc)⟩
      · rintro ⟨h1, h2⟩
        rcases List.mem_cons.mp h1 with rfl | h1
        · exact List.mem_cons_self _ _
        · by_cases hyx : y = x
          · subst hyx
            exact List.mem_cons_self _ _
          · refine List.mem_cons_of_mem _ ((ih (x :: seen) y).mpr ⟨h1, ?_⟩)
            intro hc
            rcases List.mem_cons.mp hc with h3 | h3
            · exact hyx h3
            · exact h2 h3

theorem firstKeys_mem {β : Type} [DecidableEq β] (l : List β) (y : β) :
    y ∈ firstKeys l ↔ y ∈ l := by
  unfold firstKeys
  rw [firstKeysAux_mem]
  simp

/-- Root of item `i` in the parent array left by the pair loop.  The
grouping loop of the source calls `find(i)` on the evolving array; path
compression never changes a root (`findAux_spec`), so the group key of
`i` is its root in the final array. -/
def simRootOf (norms : List GoStr) (i : Nat) : Nat := UF.rootD (simParents norms) i

/-- The clusters of `groupBySimlarity` as lists of item indices, one
group per distinct root.  A Go map is iterated in unspecified order; we
fix the order in which the roots first appear (per-entry results of the
diversity stage do not depend on the group order: the groups touch
pairwise disjoint indices).  Within a group, indices appear in ascending
order, exactly as the grouping loop appends them. -/
def clusterIndices (norms : List GoStr) : List (List Nat) :=
  (firstKeys ((List.range norms.length).map (simRootOf norms))).map
    (fun r => (List.range norms.length).filter (fun i => decide (simRootOf norms i = r)))

/-- `groupBySimlarity` (part_018 lines 296-338). -/
def groupBySimlarity (items : List (IndexedEntry α)) : List (List (IndexedEntry α)) :=
  (clusterIndices (items.map (fun it => it.normValue))).map
    (fun g => g.map (fun i => items.getD i defaultIndexedEntry))

theorem mem_clusterIndices_iff (norms : List GoStr) (i j : Nat)
    (hi : i < norms.length) (hj : j < norms.length) :
    (∃ g ∈ clusterIndices norms, i ∈ g ∧ j ∈ g)
      ↔ simRootOf norms i = simRootOf norms j := by
  constructor
  · rintro ⟨g, hg, hig, hjg⟩
    rcases List.mem_map.mp hg with ⟨r, _, rfl⟩
    have h1 := (List.mem_filter.mp hig).2
    have h2 := (List.mem_filter.mp hjg).2
    simp only [decide_eq_true_eq] at h1 h2
    rw [h1, h2]
  · intro h
    refine ⟨(List.range norms.length).filter
        (fun k => decide (simRootOf norms k = simRootOf norms i)), ?_, ?_, ?_⟩
    · apply List.mem_map.mpr
      refine ⟨simRootOf norms i, ?_, rfl⟩
      apply (firstKeys_mem _ _).mpr
      exact List.mem_map.mpr ⟨i, List.mem_range.mpr hi, rfl⟩
    · exact List.mem_filter.mpr ⟨List.mem_range.mpr hi, by simp⟩
    · exact List.mem_filter.mpr ⟨List.mem_range.mpr hj, by simp [h]⟩

theorem norms_getD (items : List (IndexedEntry α)) (i : Nat) (hi : i < items.length) :
    (items.map (fun it => it.normValue)).getD i []
      = (items.getD i defaultIndexedEntry).normValue := by
  rw [List.getD_eq_getElem _ _ (by simpa using hi), List.getD_eq_getElem _ _ hi]
  simp

theorem same_item_same_root (items : List (IndexedEntry α)) (k i : Nat)
    (hk : k < items.length) (hi : i < items.length)
    (heq : items.getD k defaultIndexedEntry = items.getD i defaultIndexedEntry) :
    simRootOf (items.map (fun it => it.normValue)) k
      = simRootOf (items.map (fun it => it.normValue)) i := by
  set norms := items.map (fun it => it.normValue) with hn
  have hlen : norms.length = items.length := by simp [hn]
  apply (sameRoot_iff_transGen norms k i (by omega)).mpr
  apply Relation.TransGen.single
  refine ⟨by omega, by omega, ?_⟩
  rw [norms_getD items k hk, norms_getD items i hi, heq]
  exact areSimilar_refl _

/-- C4: two entries land in the same diversity cluster exactly when they
are related by the transitive closure of the similarity relation on the
normalized primary values; in particular similarity chains A~B~C put all
three in one cluster. -/
theorem groupBySimlarity_cluster_iff_transGen (items : List (IndexedEntry α)) (i j : Nat)
    (hi : i < items.length) (hj : j < items.length) :
    (∃ g ∈ groupBySimlarity items,
        items.getD i defaultIndexedEntry ∈ g ∧ items.getD j defaultIndexedEntry ∈ g)
      ↔ Relation.TransGen
          (fun u v => u < items.length ∧ v < items.length
            ∧ areSimilar ((items.getD u defaultIndexedEntry).normValue)
                ((items.getD v defaultIndexedEntry).normValue) = true) i j := by
  set norms := items.map (fun it => it.normValue) with hn
  have hlen : norms.length = items.length := by simp [hn]
  have hrel : ∀ u v, simRel norms u v
      ↔ (u < items.length ∧ v < items.length
          ∧ areSimilar ((items.getD u defaultIndexedEntry).normValue)
              ((items.getD v defaultIndexedEntry).normValue) = true) := by
    intro u v
    unfold simRel
    rw [hlen]
    constructor
    · rintro ⟨hu, hv, hs⟩
      rw [norms_getD items u hu, norms_getD items v hv] at hs
      exact ⟨hu, hv, hs⟩
    · rintro ⟨hu, hv, hs⟩
      rw [← norms_getD items u hu, ← norms_getD items v hv] at hs
      exact ⟨hu, hv, hs⟩
  have hstep1 : (∃ g ∈ groupBySimlarity items,
      items.getD i defaultIndexedEntry ∈ g ∧ items.getD j defaultIndexedEntry ∈ g)
      ↔ simRootOf norms i = simRootOf norms j := by
    constructor
    · rintro ⟨g, hg, hig, hjg⟩
      rcases List.mem_map.mp hg with ⟨idxg, hidxg, rfl⟩
      rcases List.mem_map.mp hig with ⟨k, hk, hki⟩
      rcases List.mem_map.mp hjg with ⟨m, hm, hmj⟩
      rcases List.mem_map.mp hidxg with ⟨r, _, rfl⟩
      have hkmem := List.mem_filter.mp hk
      have hmmem := List.mem_filter.mp hm
      have hkn : k < norms.length := List.mem_range.mp hkmem.1
      have hmn : m < norms.length := List.mem_range.mp hmmem.1
      have hkr : simRootOf norms k = r := by
        have := hkmem.2; simpa using this
      have hmr : simRootOf norms m = r := by
        have := hmmem.2; simpa using this
      have h1 : simRootOf norms i = simRootOf norms k :=
        same_item_same_root items i k (by omega) (by omega) hki.symm
      have h2 : simRootOf norms m = simRootOf norms j :=
        same_item_same_root items m j (by omega) (by omega) hmj
      rw [h1, hkr, ← hmr, h2]
    · intro h
      rcases (mem_clusterIndices_iff norms i j (by omega) (by omega)).mpr h
        with ⟨idxg, hidxg, hig, hjg⟩
      refine ⟨idxg.map (fun k => items.getD k defaultIndexedEntry), ?_, ?_, ?_⟩
      · exact List.mem_map.mpr ⟨idxg, hidxg, rfl⟩
      · exact List.mem_map.mpr ⟨i, hig, rfl⟩
      · exact List.mem_map.mpr ⟨j, hjg, rfl⟩
  rw [hstep1]
  unfold simRootOf
  rw [sameRoot_iff_transGen norms i j (by omega)]
  constructor
  · intro h
    exact Relation.TransGen.mono (fun u v huv => (hrel u v).mp huv) h
  · intro h
    exact Relation.TransGen.mono (fun u v huv => (hrel u v).mpr huv) h

/-- Concrete items for the clustering witness: three pizzeria entries
whose values chain by containment, plus an unrelated one. -/
def c4Items : List (IndexedEntry ℚ) :=
  [⟨0, gostr ("Pizza"), gostr ("pizza"), 80⟩,
   ⟨1, gostr ("Pizza Place"), gostr ("pizza place"), 70⟩,
   ⟨2, gostr ("Place"), gostr ("place"), 60⟩,
   ⟨3, gostr ("Sushi"), gostr ("sushi"), 50⟩]

/-- Witness: the clustering theorem applied at a concrete item list. -/
theorem groupBySimlarity_cluster_iff_transGen_witness :
    (∃ g ∈ groupBySimlarity c4Items,
        c4Items.getD 0 defaultIndexedEntry ∈ g ∧ c4Items.getD 2 defaultIndexedEntry ∈ g)
      ↔ Relation.TransGen
          (fun u v => u < c4Items.length ∧ v < c4Items.length
            ∧ areSimilar ((c4Items.getD u defaultIndexedEntry).normValue)
                ((c4Items.getD v defaultIndexedEntry).normValue) = true) 0 2 :=
  groupBySimlarity_cluster_iff_transGen c4Items 0 2 (by decide) (by decide)
/-! ## Diversity penalty (`applyDiversityPenalty`, part_018 lines 141-294) -/

/-- First index at which `sub` occurs in `s` (Go `strings.Index`),
`none` when absent. -/
def goIndex (s sub : GoStr) : Option Nat :=
  (List.range (s.length + 1)).find? (fun i => decide (sub <+: s.drop i))

/-- Byte-level lowercase (`strings.ToLower`, modelled on the ASCII
range; the primary values the ranker normalizes are ASCII). -/
def byteToLower (b : Nat) : Nat := if 65 ≤ b ∧ b ≤ 90 then b + 32 else b

/-- Strip the suffix of `s` from the first occurrence of `sep` on, but
only when that occurrence starts at a positive index: the source guards
each strip with `idx > 0` (part_018 lines 271-281). -/
def stripAfterAt (s sep : GoStr) : GoStr :=
  match goIndex s sep with
  | some i => if 0 < i then s.take i else s
  | none => s

/-- Letters, digits and the space byte (`unicode.IsLetter`/`IsDigit`
restricted to the ASCII range of the normalized data). -/
def isWordByte (b : Nat) : Bool :=
  decide (97 ≤ b ∧ b ≤ 122) || decide (65 ≤ b ∧ b ≤ 90)
    || decide (48 ≤ b ∧ b ≤ 57) || decide (b = 32)

/-- Accumulator pass of `strings.Fields`: split on space runs, dropping
empty fields (after the letter/digit/space filter the only whitespace
byte left is 32). -/
def goFieldsAux : GoStr → GoStr → List GoStr
  | [], acc => if acc = [] then [] else [acc.reverse]
  | b :: rest, acc =>
    if b = 32 then
      if acc = [] then goFieldsAux rest [] else acc.reverse :: goFieldsAux rest []
    else goFieldsAux rest (b :: acc)

/-- `strings.Fields`. -/
def goFields (s : GoStr) : List GoStr := goFieldsAux s []

/-- `normalizePrimary` (part_018 lines 265-294): lowercase, strip a
parenthetical suffix, strip ` via `/` - `/` -- ` suffixes, keep only
letters, digits and spaces, collapse whitespace. -/
def normalizePrimary (s : GoStr) : GoStr :=
  let s1 := s.map byteToLower
  let s2 := stripAfterAt s1 (gostr ("("))
  let s3 := stripAfterAt s2 (gostr (" via "))
  let s4 := stripAfterAt s3 (gostr (" - "))
  let s5 := stripAfterAt s4 (gostr (" -- "))
  List.intercalate (gostr (" ")) (goFields (s5.filter isWordByte))

/-- Rendering of a dynamic value by `primaryFieldString`: a string value
is returned as is, anything else through its `fmt` rendering. -/
def renderValue : GoValue → GoStr
  | GoValue.vstr s => s
  | GoValue.vother r => r

/-- `primaryFieldString` (part_018 lines 250-263): the first field value
with the requested id and a non-nil value. -/
def primaryFieldString (e : Entry α) (fieldID : GoStr) : GoStr :=
  match e.fields.find? (fun fv => decide (fv.id = fieldID) && fv.value.isSome) with
  | some fv => (fv.value.map renderValue).getD []
  | none => []

/-- Primary field selection (part_018 lines 146-159): the id of the
first required field; if that is empty, the first field's id; empty when
the form has no fields. -/
def primaryFieldID (form : Form) : GoStr :=
  let fromReq := ((form.fields.find? (fun f => f.required)).map (fun f => f.id)).getD []
  if fromReq = [] ∧ form.fields ≠ [] then (form.fields.getD 0 ⟨[], false⟩).id
  else fromReq

/-- The item-extraction loop (part_018 lines 161-174): keep the entries
whose primary value renders non-empty, tagged with position, raw value,
normalized value and current algorithmic score. -/
def mkItems (primaryID : GoStr) (entries : List (RankInput α))
    (outputs : List (RankOutput α)) : List (IndexedEntry α) :=
  (List.range entries.length).filterMap (fun i =>
    let raw := primaryFieldString (entries.getD i defaultRankInput).entry primaryID
    if raw = [] then none
    else some ⟨i, raw, normalizePrimary raw, (outputs.getD i defaultRankOutput).algoScore⟩)

/-- Penalty at 1-based rank `rank` inside a cluster: −15, −25, −35, ...,
floored at −50 (part_018 lines 198-202). -/
def diversityPenaltyAt (rank : Nat) : α :=
  max (-50) (-15 - ((rank : α) - 1) * 10)

/-- The record update a penalized entry receives (part_018 lines
204-207): accumulate the penalty, recompute the final score, add the
`duplicate` flag, set the reason naming the cluster winner. -/
def diversityUpdate (rank : Nat) (winnerRaw : GoStr) (o : RankOutput α) : RankOutput α :=
  { o with
    penalty := o.penalty + diversityPenaltyAt rank,
    finalScore := max 0 (o.algoScore + (o.penalty + diversityPenaltyAt rank)),
    flags := appendUnique o.flags (gostr ("duplicate")),
    reason := gostr ("Similar to higher-scored entry: ") ++ winnerRaw }

/-- The per-cluster pass (part_018 lines 181-209): clusters of size at
most 1 are skipped; otherwise sort by descending algorithmic score and
penalize every rank beyond the first. -/
def penalizeGroup (outputs : List (RankOutput α)) (group : List (IndexedEntry α)) :
    List (RankOutput α) :=
  if group.length ≤ 1 then outputs
  else
    (List.range (sortDescBy (fun it => it.algoScore) group).length).foldl
      (fun outs rank =>
        if rank = 0 then outs
        else
          modifyIdx outs
            ((sortDescBy (fun it => it.algoScore) group).getD rank defaultIndexedEntry).idx
            (diversityUpdate rank
              ((sortDescBy (fun it => it.algoScore) group).getD 0 defaultIndexedEntry).rawValue))
      outputs

/-- `applyDiversityPenalty` (part_018 lines 145-210). -/
def applyDiversityPenalty (form : Form) (entries : List (RankInput α))
    (outputs : List (RankOutput α)) : List (RankOutput α) :=
  if primaryFieldID form = [] then outputs
  else
    (groupBySimlarity (mkItems (primaryFieldID form) entries outputs)).foldl
      penalizeGroup outputs
theorem firstKeysAux_nodup {β : Type} [DecidableEq β] (l : List β) :
    ∀ (seen : List β), (firstKeysAux l seen).Nodup := by
  induction l with
  | nil => intro seen; simp [firstKeysAux]
  | cons x xs ih =>
    intro seen
    unfold firstKeysAux
    by_cases hx : x ∈ seen
    · rw [if_pos hx]
      exact ih seen
    · rw [if_neg hx]
      refine List.nodup_cons.mpr ⟨?_, ih (x :: seen)⟩
      intro hmem
      exact ((firstKeysAux_mem xs (x :: seen) x).mp hmem).2 (List.mem_cons_self _ _)

theorem firstKeys_nodup {β : Type} [DecidableEq β] (l : List β) : (firstKeys l).Nodup :=
  firstKeysAux_nodup l []

theorem items_idx_ne (items : List (IndexedEntry α))
    (hpw : items.Pairwise (fun a b => a.idx < b.idx)) :
    ∀ x ∈ items, ∀ y ∈ items, x ≠ y → x.idx ≠ y.idx := by
  have h2 : items.Pairwise (fun a b => a.idx ≠ b.idx) :=
    hpw.imp (fun h => Nat.ne_of_lt h)
  intro x hx y hy hne
  exact List.Pairwise.forall (fun a b h => h.symm) h2 hx hy hne

theorem divFold_frame (S : List (IndexedEntry α)) (w : GoStr) :
    ∀ (L : List Nat) (outs : List (RankOutput α)) (pos : Nat),
      (∀ rank ∈ L, rank ≠ 0 → (S.getD rank defaultIndexedEntry).idx ≠ pos) →
      (L.foldl (fun outs rank =>
          if rank = 0 then outs
          else modifyIdx outs (S.getD rank defaultIndexedEntry).idx
            (diversityUpdate rank w)) outs).getD pos defaultRankOutput
        = outs.getD pos defaultRankOutput
  | [], _, _, _ => rfl
  | rank :: L, outs, pos, h => by
    rw [List.foldl_cons]
    by_cases h0 : rank = 0
    · rw [if_pos h0]
      exact divFold_frame S w L outs pos (fun q hq hq0 => h q (List.mem_cons_of_mem _ hq) hq0)
    · rw [if_neg h0]
      rw [divFold_frame S w L _ pos (fun q hq hq0 => h q (List.mem_cons_of_mem _ hq) hq0)]
      exact modifyIdx_getD_ne _ _ _ _ _ (Ne.symm (h rank (List.mem_cons_self _ _) h0))

theorem divFold_length (S : List (IndexedEntry α)) (w : GoStr) :
    ∀ (L : List Nat) (outs : List (RankOutput α)),
      (L.foldl (fun outs rank =>
          if rank = 0 then outs
          else modifyIdx outs (S.getD rank defaultIndexedEntry).idx
            (diversityUpdate rank w)) outs).length = outs.length
  | [], _ => rfl
  | rank :: L, outs => by
    rw [List.foldl_cons]
    by_cases h0 : rank = 0
    · rw [if_pos h0]
      exact divFold_length S w L outs
    · rw [if_neg h0]
      rw [divFold_length S w L _]
      exact modifyIdx_length _ _ _

theorem divFold_at (S : List (IndexedEntry α)) (w : GoStr) :
    ∀ (L : List Nat) (outs : List (RankOutput α)) (r : Nat),
      L.Nodup → r ∈ L → r ≠ 0 →
      (∀ q ∈ L, q ≠ 0 → q ≠ r →
        (S.getD q defaultIndexedEntry).idx ≠ (S.getD r defaultIndexedEntry).idx) →
      (S.getD r defaultIndexedEntry).idx < outs.length →
      (L.foldl (fun outs rank =>
          if rank = 0 then outs
          else modifyIdx outs (S.getD rank defaultIndexedEntry).idx
            (diversityUpdate rank w)) outs).getD (S.getD r defaultIndexedEntry).idx
          defaultRankOutput
        = diversityUpdate r w
            (outs.getD (S.getD r defaultIndexedEntry).idx defaultRankOutput)
  | [], _, _, _, hmem, _, _, _ => absurd hmem (by simp)
  | q :: L, outs, r, hnd, hmem, hr0, hdist, hbound => by
    rw [List.foldl_cons]
    rcases List.nodup_cons.mp hnd with ⟨hqL, hndL⟩
    by_cases hqr : q = r
    · subst hqr
      rw [if_neg hr0]
      rw [divFold_frame S w L _ _ ?_]
      · exact modifyIdx_getD_eq _ _ _ _ hbound
      · intro rank hrank hrank0
        by_cases hrr : rank = q
        · exact absurd (hrr ▸ hrank) hqL
        · exact hdist rank (List.mem_cons_of_mem _ hrank) hrank0 hrr
    · have hmemL : r ∈ L := by
        rcases List.mem_cons.mp hmem with rfl | h
        · exact absurd rfl hqr
        · exact h
      by_cases h0 : q = 0
      · rw [if_pos h0]
        exact divFold_at S w L outs r hndL hmemL hr0
          (fun p hp hp0 hpr => hdist p (List.mem_cons_of_mem _ hp) hp0 hpr) hbound
      · rw [if_neg h0]
        rw [divFold_at S w L _ r hndL hmemL hr0
          (fun p hp hp0 hpr => hdist p (List.mem_cons_of_mem _ hp) hp0 hpr)
          (by rw [modifyIdx_length]; exact hbound)]
        rw [modifyIdx_getD_ne _ _ _ _ _ (Ne.symm (hdist q (List.mem_cons_self _ _) h0 hqr))]

/-- Elements of a cluster at distinct sorted positions carry distinct
entry positions. -/
theorem sorted_idx_ne (g : List (IndexedEntry α))
    (hpwg : g.Pairwise (fun a b => a.idx < b.idx)) (q r : Nat)
    (hq : q < (sortDescBy (fun it => it.algoScore) g).length)
    (hr : r < (sortDescBy (fun it => it.algoScore) g).length) (hne : q ≠ r) :
    ((sortDescBy (fun it => it.algoScore) g).getD q defaultIndexedEntry).idx
      ≠ ((sortDescBy (fun it => it.algoScore) g).getD r defaultIndexedEntry).idx := by
  set S := sortDescBy (fun it => it.algoScore) g with hS
  have hperm := sortDescBy_perm (fun it : IndexedEntry α => it.algoScore) g
  have hgnd : g.Nodup := hpwg.imp (fun h => by
    intro hcon
    rw [hcon] at h
    exact lt_irrefl _ h)
  have hSnd : S.Nodup := hperm.nodup_iff.mpr hgnd
  rw [List.getD_eq_getElem _ _ hq, List.getD_eq_getElem _ _ hr]
  have helem : S[q] ≠ S[r] := by
    intro hcon
    exact hne ((List.Nodup.getElem_inj_iff hSnd).mp hcon)
  apply items_idx_ne g hpwg
  · exact hperm.mem_iff.mp (List.getElem_mem _)
  · exact hperm.mem_iff.mp (List.getElem_mem _)
  · exact helem

theorem penalizeGroup_length (outs : List (RankOutput α)) (g : List (IndexedEntry α)) :
    (penalizeGroup outs g).length = outs.length := by
  unfold penalizeGroup
  split
  · rfl
  · exact divFold_length _ _ _ _

theorem penalizeGroup_frame (outs : List (RankOutput α)) (g : List (IndexedEntry α))
    (pos : Nat) (hpos : ∀ it ∈ g, it.idx ≠ pos) :
    (penalizeGroup outs g).getD pos defaultRankOutput
      = outs.getD pos defaultRankOutput := by
  unfold penalizeGroup
  split
  · rfl
  · apply divFold_frame
    intro rank hrank _
    apply hpos
    have hlt : rank < (sortDescBy (fun it => it.algoScore) g).length :=
      List.mem_range.mp hrank
    rw [List.getD_eq_getElem _ _ hlt]
    exact (sortDescBy_perm (fun it : IndexedEntry α => it.algoScore) g).mem_iff.mp
      (List.getElem_mem _)

theorem penalizeGroup_at (outs : List (RankOutput α)) (g : List (IndexedEntry α))
    (hg1 : 1 < g.length) (hpwg : g.Pairwise (fun a b => a.idx < b.idx))
    (r : Nat) (hr1 : 1 ≤ r) (hr : r < g.length)
    (hbound : ((sortDescBy (fun it => it.algoScore) g).getD r defaultIndexedEntry).idx
      < outs.length) :
    (penalizeGroup outs g).getD
        ((sortDescBy (fun it => it.algoScore) g).getD r defaultIndexedEntry).idx
        defaultRankOutput
      = diversityUpdate r
          ((sortDescBy (fun it => it.algoScore) g).getD 0 defaultIndexedEntry).rawValue
          (outs.getD
            ((sortDescBy (fun it => it.algoScore) g).getD r defaultIndexedEntry).idx
            defaultRankOutput) := by
  have hlenS : (sortDescBy (fun it : IndexedEntry α => it.algoScore) g).length = g.length :=
    sortDescBy_length _ _
  unfold penalizeGroup
  rw [if_neg (by omega)]
  apply divFold_at
  · exact List.nodup_range _
  · exact List.mem_range.mpr (by omega)
  · omega
  · intro q hq hq0 hqr
    exact sorted_idx_ne g hpwg q r (List.mem_range.mp hq) (by rw [hlenS]; omega) hqr
  · exact hbound

theorem penalizeGroup_winner (outs : List (RankOutput α)) (g : List (IndexedEntry α))
    (hpwg : g.Pairwise (fun a b => a.idx < b.idx)) :
    (penalizeGroup outs g).getD
        ((sortDescBy (fun it => it.algoScore) g).getD 0 defaultIndexedEntry).idx
        defaultRankOutput
      = outs.getD
          ((sortDescBy (fun it => it.algoScore) g).getD 0 defaultIndexedEntry).idx
          defaultRankOutput := by
  unfold penalizeGroup
  split
  · rfl
  · apply divFold_frame
    intro rank hrank hrank0
    exact sorted_idx_ne g hpwg rank 0 (List.mem_range.mp hrank)
      (by
        rename_i hlen
        rw [sortDescBy_length]
        omega)
      hrank0
theorem foldl_penalizeGroup_frame :
    ∀ (gs : List (List (IndexedEntry α))) (outs : List (RankOutput α)) (pos : Nat),
      (∀ g ∈ gs, ∀ it ∈ g, it.idx ≠ pos) →
      (gs.foldl penalizeGroup outs).getD pos defaultRankOutput
        = outs.getD pos defaultRankOutput
  | [], _, _, _ => rfl
  | g :: gs, outs, pos, h => by
    rw [List.foldl_cons]
    rw [foldl_penalizeGroup_frame gs _ pos (fun g2 hg2 => h g2 (List.mem_cons_of_mem _ hg2))]
    exact penalizeGroup_frame outs g pos (h g (List.mem_cons_self _ _))

theorem foldl_penalizeGroup_local (F : RankOutput α → RankOutput α) :
    ∀ (gs : List (List (IndexedEntry α))) (outs : List (RankOutput α))
      (g0 : List (IndexedEntry α)) (pos : Nat),
      g0 ∈ gs →
      gs.Pairwise (fun g1 g2 => ∀ x ∈ g1, ∀ y ∈ g2, x.idx ≠ y.idx) →
      (∃ it ∈ g0, it.idx = pos) →
      (∀ X : List (RankOutput α), X.length = outs.length →
        (penalizeGroup X g0).getD pos defaultRankOutput = F (X.getD pos defaultRankOutput)) →
      (gs.foldl penalizeGroup outs).getD pos defaultRankOutput
        = F (outs.getD pos defaultRankOutput)
  | [], _, _, _, hmem, _, _, _ => absurd hmem (by simp)
  | g :: gs, outs, g0, pos, hmem, hpw, hin, hF => by
    rw [List.foldl_cons]
    rcases List.pairwise_cons.mp hpw with ⟨hhead, htail⟩
    rcases List.mem_cons.mp hmem with rfl | hmem2
    · rw [foldl_penalizeGroup_frame gs _ pos ?_]
      · exact hF outs rfl
      · intro g2 hg2 it2 hit2
        rcases hin with ⟨it0, hit0, rfl⟩
        exact Ne.symm (hhead g2 hg2 it0 hit0 it2 hit2)
    · rw [foldl_penalizeGroup_local F gs _ g0 pos hmem2 htail hin ?_]
      · congr 1
        apply penalizeGroup_frame
        intro it hit
        rcases hin with ⟨it0, hit0, rfl⟩
        exact hhead g0 hmem2 it hit it0 hit0
      · intro X hX
        apply hF
        rw [hX, penalizeGroup_length]
/-- The thread groups (part_018 lines 221-224): entry indices grouped by
source thread post id, paired with their current final scores, keys in
first-appearance order (a Go map iterates in unspecified order; the
per-entry outcome does not depend on it because distinct groups touch
disjoint indices). Within a group, indices appear in ascending order,
exactly as the grouping loop appends them. -/
def threadGroups (entries : List (RankInput α)) (outputs : List (RankOutput α)) :
    List (List (Nat × α)) :=
  (firstKeys (entries.map (fun e => e.threadPostID))).map
    (fun tid => ((List.range entries.length).filter
        (fun i => decide ((entries.getD i defaultRankInput).threadPostID = tid))).map
      (fun i => (i, (outputs.getD i defaultRankOutput).finalScore)))

/-- Saturation penalty at 0-based rank `rank`: −5·rank floored at −30
(part_018 lines 239-242). -/
def saturationPenaltyAt (rank : Nat) : α := max (-30) (-5 * (rank : α))

/-- The update a saturated entry receives (part_018 lines 244-245):
accumulate the penalty and recompute the final score. -/
def saturationUpdate (rank : Nat) (o : RankOutput α) : RankOutput α :=
  { o with
    penalty := o.penalty + saturationPenaltyAt rank,
    finalScore := max 0 (o.algoScore + (o.penalty + saturationPenaltyAt rank)) }

/-- The per-thread-group pass (part_018 lines 226-247): groups of size at
most 1 are skipped; otherwise sort by descending captured final score
and penalize every rank beyond the first. -/
def saturateGroup (outputs : List (RankOutput α)) (group : List (Nat × α)) :
    List (RankOutput α) :=
  if group.length ≤ 1 then outputs
  else
    (List.range (sortDescBy Prod.snd group).length).foldl
      (fun outs rank =>
        if rank = 0 then outs
        else modifyIdx outs ((sortDescBy Prod.snd group).getD rank (0, 0)).1
          (saturationUpdate rank))
      outputs

/-- `applyThreadSaturation` (part_018 lines 215-248). -/
def applyThreadSaturation (entries : List (RankInput α)) (outputs : List (RankOutput α)) :
    List (RankOutput α) :=
  (threadGroups entries outputs).foldl saturateGroup outputs

theorem satFold_frame (S : List (Nat × α)) :
    ∀ (L : List Nat) (outs : List (RankOutput α)) (pos : Nat),
      (∀ rank ∈ L, rank ≠ 0 → (S.getD rank (0, 0)).1 ≠ pos) →
      (L.foldl (fun outs rank =>
          if rank = 0 then outs
          else modifyIdx outs (S.getD rank (0, 0)).1 (saturationUpdate rank)) outs).getD
          pos defaultRankOutput
        = outs.getD pos defaultRankOutput
  | [], _, _, _ => rfl
  | rank :: L, outs, pos, h => by
    rw [List.foldl_cons]
    by_cases h0 : rank = 0
    · rw [if_pos h0]
      exact satFold_frame S L outs pos (fun q hq hq0 => h q (List.mem_cons_of_mem _ hq) hq0)
    · rw [if_neg h0]
      rw [satFold_frame S L _ pos (fun q hq hq0 => h q (List.mem_cons_of_mem _ hq) hq0)]
      exact modifyIdx_getD_ne _ _ _ _ _ (Ne.symm (h rank (List.mem_cons_self _ _) h0))

theorem satFold_length (S : List (Nat × α)) :
    ∀ (L : List Nat) (outs : List (RankOutput α)),
      (L.foldl (fun outs rank =>
          if rank = 0 then outs
          else modifyIdx outs (S.getD rank (0, 0)).1 (saturationUpdate rank)) outs).length
        = outs.length
  | [], _ => rfl
  | rank :: L, outs => by
    rw [List.foldl_cons]
    by_cases h0 : rank = 0
    · rw [if_pos h0]
      exact satFold_length S L outs
    · rw [if_neg h0]
      rw [satFold_length S L _]
      exact modifyIdx_length _ _ _

theorem satFold_at (S : List (Nat × α)) :
    ∀ (L : List Nat) (outs : List (RankOutput α)) (r : Nat),
      L.Nodup → r ∈ L → r ≠ 0 →
      (∀ q ∈ L, q ≠ 0 → q ≠ r → (S.getD q (0, 0)).1 ≠ (S.getD r (0, 0)).1) →
      (S.getD r (0, 0)).1 < outs.length →
      (L.foldl (fun outs rank =>
          if rank = 0 then outs
          else modifyIdx outs (S.getD rank (0, 0)).1 (saturationUpdate rank)) outs).getD
          (S.getD r (0, 0)).1 defaultRankOutput
        = saturationUpdate r (outs.getD (S.getD r (0, 0)).1 defaultRankOutput)
  | [], _, _, _, hmem, _, _, _ => absurd hmem (by simp)
  | q :: L, outs, r, hnd, hmem, hr0, hdist, hbound => by
    rw [List.foldl_cons]
    rcases List.nodup_cons.mp hnd with ⟨hqL, hndL⟩
    by_cases hqr : q = r
    · subst hqr
      rw [if_neg hr0]
      rw [satFold_frame S L _ _ ?_]
      · exact modifyIdx_getD_eq _ _ _ _ hbound
      · intro rank hrank hrank0
        by_cases hrr : rank = q
        · exact absurd (hrr ▸ hrank) hqL
        · exact hdist rank (List.mem_cons_of_mem _ hrank) hrank0 hrr
    · have hmemL : r ∈ L := by
        rcases List.mem_cons.mp hmem with rfl | h
        · exact absurd rfl hqr
        · exact h
      by_cases h0 : q = 0
      · rw [if_pos h0]
        exact satFold_at S L outs r hndL hmemL hr0
          (fun p hp hp0 hpr => hdist p (List.mem_cons_of_mem _ hp) hp0 hpr) hbound
      · rw [if_neg h0]
        rw [satFold_at S L _ r hndL hmemL hr0
          (fun p hp hp0 hpr => hdist p (List.mem_cons_of_mem _ hp) hp0 hpr)
          (by rw [modifyIdx_length]; exact hbound)]
        rw [modifyIdx_getD_ne _ _ _ _ _ (Ne.symm (hdist q (List.mem_cons_self _ _) h0 hqr))]
theorem threadGroups_shape (entries : List (RankInput α)) (outputs : List (RankOutput α))
    (g : List (Nat × α)) (hg : g ∈ threadGroups entries outputs) :
    g.Pairwise (fun a b => a.1 < b.1) ∧ ∀ p ∈ g, p.1 < entries.length := by
  unfold threadGroups at hg
  rcases List.mem_map.mp hg with ⟨tid, _, rfl⟩
  constructor
  · rw [List.pairwise_map]
    apply List.Pairwise.imp ?_
      ((List.pairwise_lt_range _).sublist (List.filter_sublist _))
    intro a b hab
    exact hab
  · intro p hp
    rcases List.mem_map.mp hp with ⟨i, hi, rfl⟩
    exact List.mem_range.mp (List.mem_filter.mp hi).1

theorem pairs_fst_ne (g : List (Nat × α))
    (hpw : g.Pairwise (fun a b => a.1 < b.1)) :
    ∀ x ∈ g, ∀ y ∈ g, x ≠ y → x.1 ≠ y.1 := by
  have h2 : g.Pairwise (fun a b => a.1 ≠ b.1) :=
    hpw.imp (fun h => Nat.ne_of_lt h)
  intro x hx y hy hne
  exact List.Pairwise.forall (fun a b h => h.symm) h2 hx hy hne

theorem threadGroups_disjoint (entries : List (RankInput α)) (outputs : List (RankOutput α)) :
    (threadGroups entries outputs).Pairwise
      (fun g1 g2 => ∀ x ∈ g1, ∀ y ∈ g2, x.1 ≠ y.1) := by
  unfold threadGroups
  rw [List.pairwise_map]
  apply List.Pairwise.imp_of_mem ?_ (firstKeys_nodup _)
  intro t1 t2 _ _ hne x hx y hy
  rcases List.mem_map.mp hx with ⟨a, ha, rfl⟩
  rcases List.mem_map.mp hy with ⟨b, hb, rfl⟩
  have hat := (List.mem_filter.mp ha).2
  have hbt := (List.mem_filter.mp hb).2
  simp only [decide_eq_true_eq] at hat hbt
  intro hcon
  apply hne
  simp only at hcon
  rw [← hat, ← hbt, hcon]

theorem sorted_fst_ne (g : List (Nat × α))
    (hpw : g.Pairwise (fun a b => a.1 < b.1)) (q r : Nat)
    (hq : q < (sortDescBy Prod.snd g).length)
    (hr : r < (sortDescBy Prod.snd g).length) (hne : q ≠ r) :
    ((sortDescBy Prod.snd g).getD q (0, 0)).1
      ≠ ((sortDescBy Prod.snd g).getD r (0, 0)).1 := by
  have hperm := sortDescBy_perm (Prod.snd : Nat × α → α) g
  have hgnd : g.Nodup := hpw.imp (fun h => by
    intro hcon
    rw [hcon] at h
    exact lt_irrefl _ h)
  have hSnd : (sortDescBy Prod.snd g).Nodup := hperm.nodup_iff.mpr hgnd
  rw [List.getD_eq_getElem _ _ hq, List.getD_eq_getElem _ _ hr]
  apply pairs_fst_ne g hpw
  · exact hperm.mem_iff.mp (List.getElem_mem _)
  · exact hperm.mem_iff.mp (List.getElem_mem _)
  · intro hcon
    exact hne ((List.Nodup.getElem_inj_iff hSnd).mp hcon)

theorem saturateGroup_length (outs : List (RankOutput α)) (g : List (Nat × α)) :
    (saturateGroup outs g).length = outs.length := by
  unfold saturateGroup
  split
  · rfl
  · exact satFold_length _ _ _

theorem saturateGroup_frame (outs : List (RankOutput α)) (g : List (Nat × α))
    (pos : Nat) (hpos : ∀ p ∈ g, p.1 ≠ pos) :
    (saturateGroup outs g).getD pos defaultRankOutput
      = outs.getD pos defaultRankOutput := by
  unfold saturateGroup
  split
  · rfl
  · apply satFold_frame
    intro rank hrank _
    apply hpos
    have hlt : rank < (sortDescBy Prod.snd g).length := List.mem_range.mp hrank
    rw [List.getD_eq_getElem _ _ hlt]
    exact (sortDescBy_perm (Prod.snd : Nat × α → α) g).mem_iff.mp (List.getElem_mem _)

theorem saturateGroup_at (outs : List (RankOutput α)) (g : List (Nat × α))
    (hg1 : 1 < g.length) (hpw : g.Pairwise (fun a b => a.1 < b.1))
    (r : Nat) (hr1 : 1 ≤ r) (hr : r < g.length)
    (hbound : ((sortDescBy Prod.snd g).getD r (0, 0)).1 < outs.length) :
    (saturateGroup outs g).getD ((sortDescBy Prod.snd g).getD r (0, 0)).1
        defaultRankOutput
      = saturationUpdate r
          (outs.getD ((sortDescBy Prod.snd g).getD r (0, 0)).1 defaultRankOutput) := by
  have hlenS : (sortDescBy (Prod.snd : Nat × α → α) g).length = g.length :=
    sortDescBy_length _ _
  unfold saturateGroup
  rw [if_neg (by omega)]
  apply satFold_at
  · exact List.nodup_range _
  · exact List.mem_range.mpr (by omega)
  · omega
  · intro q hq hq0 hqr
    exact sorted_fst_ne g hpw q r (List.mem_range.mp hq) (by rw [hlenS]; omega) hqr
  · exact hbound

theorem saturateGroup_winner (outs : List (RankOutput α)) (g : List (Nat × α))
    (hpw : g.Pairwise (fun a b => a.1 < b.1)) :
    (saturateGroup outs g).getD ((sortDescBy Prod.snd g).getD 0 (0, 0)).1
        defaultRankOutput
      = outs.getD ((sortDescBy Prod.snd g).getD 0 (0, 0)).1 defaultRankOutput := by
  unfold saturateGroup
  split
  · rfl
  · apply satFold_frame
    intro rank hrank hrank0
    exact sorted_fst_ne g hpw rank 0 (List.mem_range.mp hrank)
      (by
        rename_i hlen
        rw [sortDescBy_length]
        omega)
      hrank0

theorem foldl_saturateGroup_frame :
    ∀ (gs : List (List (Nat × α))) (outs : List (RankOutput α)) (pos : Nat),
      (∀ g ∈ gs, ∀ p ∈ g, p.1 ≠ pos) →
      (gs.foldl saturateGroup outs).getD pos defaultRankOutput
        = outs.getD pos defaultRankOutput
  | [], _, _, _ => rfl
  | g :: gs, outs, pos, h => by
    rw [List.foldl_cons]
    rw [foldl_saturateGroup_frame gs _ pos (fun g2 hg2 => h g2 (List.mem_cons_of_mem _ hg2))]
    exact saturateGroup_frame outs g pos (h g (List.mem_cons_self _ _))

theorem foldl_saturateGroup_local (F : RankOutput α → RankOutput α) :
    ∀ (gs : List (List (Nat × α))) (outs : List (RankOutput α))
      (g0 : List (Nat × α)) (pos : Nat),
      g0 ∈ gs →
      gs.Pairwise (fun g1 g2 => ∀ x ∈ g1, ∀ y ∈ g2, x.1 ≠ y.1) →
      (∃ p ∈ g0, p.1 = pos) →
      (∀ X : List (RankOutput α), X.length = outs.length →
        (saturateGroup X g0).getD pos defaultRankOutput = F (X.getD pos defaultRankOutput)) →
      (gs.foldl saturateGroup outs).getD pos defaultRankOutput
        = F (outs.getD pos defaultRankOutput)
  | [], _, _, _, hmem, _, _, _ => absurd hmem (by simp)
  | g :: gs, outs, g0, pos, hmem, hpw, hin, hF => by
    rw [List.foldl_cons]
    rcases List.pairwise_cons.mp hpw with ⟨hhead, htail⟩
    rcases List.mem_cons.mp hmem with rfl | hmem2
    · rw [foldl_saturateGroup_frame gs _ pos ?_]
      · exact hF outs rfl
      · intro g2 hg2 p2 hp2
        rcases hin with ⟨p0, hp0, rfl⟩
        exact Ne.symm (hhead g2 hg2 p0 hp0 p2 hp2)
    · rw [foldl_saturateGroup_local F gs _ g0 pos hmem2 htail hin ?_]
      · congr 1
        apply saturateGroup_frame
        intro p hp
        rcases hin with ⟨p0, hp0, rfl⟩
        exact hhead g0 hmem2 p hp p0 hp0
      · intro X hX
        apply hF
        rw [hX, saturateGroup_length]
/-- C5: the saturation stage groups entries by source thread post id;
within every group of size > 1 the entries are ordered by descending
current final score, the entry at 0-based rank `r ≥ 1` receives the
additional penalty −5·r floored at −30 with its final score recomputed
as `max 0 (algo + penalty)`, and the best entry at rank 0 is untouched;
groups of size 1 are left unchanged. -/
theorem applyThreadSaturation_spec (entries : List (RankInput α))
    (outputs : List (RankOutput α)) (houts : outputs.length = entries.length)
    (g : List (Nat × α)) (hg : g ∈ threadGroups entries outputs) :
    List.Perm (sortDescBy Prod.snd g) g
    ∧ (sortDescBy Prod.snd g).Pairwise (fun u v => v.2 ≤ u.2)
    ∧ (g.length ≤ 1 → ∀ p ∈ g,
        (applyThreadSaturation entries outputs).getD p.1 defaultRankOutput
          = outputs.getD p.1 defaultRankOutput)
    ∧ (1 < g.length →
        (applyThreadSaturation entries outputs).getD
            ((sortDescBy Prod.snd g).getD 0 (0, 0)).1 defaultRankOutput
          = outputs.getD ((sortDescBy Prod.snd g).getD 0 (0, 0)).1 defaultRankOutput)
    ∧ (1 < g.length → ∀ r, 1 ≤ r → r < g.length →
        (applyThreadSaturation entries outputs).getD
            ((sortDescBy Prod.snd g).getD r (0, 0)).1 defaultRankOutput
          = saturationUpdate r
              (outputs.getD ((sortDescBy Prod.snd g).getD r (0, 0)).1
                defaultRankOutput)) := by
  rcases threadGroups_shape entries outputs g hg with ⟨hpw, hbound⟩
  have hdisj := threadGroups_disjoint entries outputs
  have hperm := sortDescBy_perm (Prod.snd : Nat × α → α) g
  have hlenS : (sortDescBy (Prod.snd : Nat × α → α) g).length = g.length :=
    sortDescBy_length _ _
  refine ⟨hperm, sortDescBy_sorted _ _, ?_, ?_, ?_⟩
  · intro hsmall p hp
    unfold applyThreadSaturation
    apply foldl_saturateGroup_local (fun X => X) _ outputs g _ hg hdisj ⟨p, hp, rfl⟩
    intro X _
    unfold saturateGroup
    rw [if_pos hsmall]
  · intro hbig
    have hmem0 : (sortDescBy Prod.snd g).getD 0 (0, 0) ∈ g := by
      have h0 : 0 < (sortDescBy (Prod.snd : Nat × α → α) g).length := by omega
      rw [List.getD_eq_getElem _ _ h0]
      exact hperm.mem_iff.mp (List.getElem_mem _)
    unfold applyThreadSaturation
    apply foldl_saturateGroup_local (fun X => X) _ outputs g _ hg hdisj ⟨_, hmem0, rfl⟩
    intro X _
    exact saturateGroup_winner X g hpw
  · intro hbig r hr1 hr
    have hmemr : (sortDescBy Prod.snd g).getD r (0, 0) ∈ g := by
      have h0 : r < (sortDescBy (Prod.snd : Nat × α → α) g).length := by omega
      rw [List.getD_eq_getElem _ _ h0]
      exact hperm.mem_iff.mp (List.getElem_mem _)
    unfold applyThreadSaturation
    apply foldl_saturateGroup_local _ _ outputs g _ hg hdisj ⟨_, hmemr, rfl⟩
    intro X hX
    apply saturateGroup_at X g hbig hpw r hr1 hr
    rw [hX, houts]
    exact hbound _ hmemr

/-- Concrete rank inputs for the saturation witness: two entries from
one thread, one from another. -/
def c5Entries : List (RankInput ℚ) :=
  [{ threadPostID := gostr ("t1"), entryIndex := 0,
     entry := { fields := [] }, threadScore := 5, numComments := 2 },
   { threadPostID := gostr ("t1"), entryIndex := 1,
     entry := { fields := [] }, threadScore := 5, numComments := 2 },
   { threadPostID := gostr ("t2"), entryIndex := 0,
     entry := { fields := [] }, threadScore := 3, numComments := 1 }]

/-- Concrete outputs for the saturation witness. -/
def c5Outputs : List (RankOutput ℚ) :=
  [{ threadPostID := gostr ("t1"), entryIndex := 0, algoScore := 80, penalty := 0,
     finalScore := 80, flags := [], reason := [] },
   { threadPostID := gostr ("t1"), entryIndex := 1, algoScore := 60, penalty := 0,
     finalScore := 60, flags := [], reason := [] },
   { threadPostID := gostr ("t2"), entryIndex := 0, algoScore := 70, penalty := 0,
     finalScore := 70, flags := [], reason := [] }]

/-- The thread group of `t1` in the saturation witness. -/
def c5Group : List (Nat × ℚ) := [(0, 80), (1, 60)]

/-- Witness: the saturation theorem applied at a concrete input. -/
theorem applyThreadSaturation_spec_witness :
    List.Perm (sortDescBy Prod.snd c5Group) c5Group
    ∧ (sortDescBy Prod.snd c5Group).Pairwise (fun u v => v.2 ≤ u.2)
    ∧ (c5Group.length ≤ 1 → ∀ p ∈ c5Group,
        (applyThreadSaturation c5Entries c5Outputs).getD p.1 defaultRankOutput
          = c5Outputs.getD p.1 defaultRankOutput)
    ∧ (1 < c5Group.length →
        (applyThreadSaturation c5Entries c5Outputs).getD
            ((sortDescBy Prod.snd c5Group).getD 0 (0, 0)).1 defaultRankOutput
          = c5Outputs.getD ((sortDescBy Prod.snd c5Group).getD 0 (0, 0)).1
              defaultRankOutput)
    ∧ (1 < c5Group.length → ∀ r, 1 ≤ r → r < c5Group.length →
        (applyThreadSaturation c5Entries c5Outputs).getD
            ((sortDescBy Prod.snd c5Group).getD r (0, 0)).1 defaultRankOutput
          = saturationUpdate r
              (c5Outputs.getD ((sortDescBy Prod.snd c5Group).getD r (0, 0)).1
                defaultRankOutput)) :=
  applyThreadSaturation_spec c5Entries c5Outputs (by decide) c5Group (by decide)
/-! ## Model-assisted assessment (`AssessWithClaude`, part_018 lines 402-485) -/

/-- A parsed model assessment (`claudeAssessment`, part_018 lines
402-408). -/
structure Assessment (α : Type) where
  index : ℤ
  flags : List GoStr
  penalty : α
  reason : GoStr
  deriving DecidableEq, Repr

/-- Penalty normalization of the assessment stage (part_018 lines
467-476): flip a positive penalty negative, clamp at −50, raise to −10
when the flag list is non-empty and the magnitude is below 10. -/
def assessPenalty (a : Assessment α) : α :=
  let p := if 0 < a.penalty then -a.penalty else a.penalty
  let p := if p < -50 then -50 else p
  if -10 < p ∧ a.flags ≠ [] then -10 else p

/-- The penalty-application loop of `AssessWithClaude` (part_018 lines
459-482), applied to the parsed assessments (the model call itself is an
external collaborator; its parsed response is this function's input):
assessments with an out-of-range index are skipped; for the rest the
stage writes `Penalty = penalty`, `FinalScore = max 0 (AlgoScore +
penalty)`, `Flags = a.Flags`, `Reason = a.Reason` — an overwrite of the
quantities accumulated by the earlier stages. -/
def applyAssessments (outputs : List (RankOutput α)) (assessments : List (Assessment α)) :
    List (RankOutput α) :=
  assessments.foldl (fun scored a =>
    if a.index < 0 ∨ (scored.length : ℤ) ≤ a.index then scored
    else
      modifyIdx scored a.index.toNat (fun o =>
        { o with
          penalty := assessPenalty a,
          finalScore := max 0 (o.algoScore + assessPenalty a),
          flags := a.flags,
          reason := a.reason })) outputs

/-- Output entering the assessment stage in the failing scenario: the
diversity stage has left penalty −15 and the `duplicate` flag. -/
def c2Outputs : List (RankOutput ℚ) :=
  [{ threadPostID := gostr ("t1"), entryIndex := 0, algoScore := 80, penalty := -15,
     finalScore := 65, flags := [gostr ("duplicate")],
     reason := gostr ("Similar to higher-scored entry: pizza") }]

/-- The model flags the same entry as spam with penalty 20. -/
def c2Assessment : Assessment ℚ :=
  { index := 0, flags := [gostr ("spam")], penalty := 20,
    reason := gostr ("spam content") }

/-- C2: the claim says the assessment stage accumulates the normalized
model penalty into the entry's existing diversity/saturation penalty and
unions the flags.  The code overwrites both (part_018 lines 478-481):
at the concrete failing input — an entry carrying penalty −15 and flag
`duplicate`, assessed with penalty 20 and flag `spam` — the entry ends
with penalty −20 instead of the accumulated −35, and its flags are
exactly `[spam]`, losing `duplicate`. -/
theorem applyAssessments_overwrites :
    ((applyAssessments c2Outputs [c2Assessment]).getD 0 defaultRankOutput).penalty = -20
    ∧ ((applyAssessments c2Outputs [c2Assessment]).getD 0 defaultRankOutput).penalty ≠ -35
    ∧ (c2Outputs.getD 0 defaultRankOutput).penalty + assessPenalty c2Assessment = -35
    ∧ ((applyAssessments c2Outputs [c2Assessment]).getD 0 defaultRankOutput).flags
        = [gostr ("spam")]
    ∧ gostr ("duplicate")
        ∉ ((applyAssessments c2Outputs [c2Assessment]).getD 0 defaultRankOutput).flags := by
  refine ⟨by decide, by decide, ?_, by decide, by decide⟩
  have h1 : assessPenalty c2Assessment = -20 := by decide
  have h2 : (c2Outputs.getD 0 defaultRankOutput).penalty = -15 := by decide
  rw [h1, h2]
  norm_num
/-! ## Score-range invariant through the full ranking pass (claim C6) -/

/-- The invariant every ranker output maintains: algorithmic score in
[0, 100], non-positive stored penalty, final score recomputed as
`max 0 (algo + penalty)`. -/
def OutInv (o : RankOutput α) : Prop :=
  0 ≤ o.algoScore ∧ o.algoScore ≤ 100 ∧ o.penalty ≤ 0
    ∧ o.finalScore = max 0 (o.algoScore + o.penalty)

theorem modifyIdx_forall {β : Type} (P : β → Prop) (l : List β) (i : Nat) (f : β → β)
    (hf : ∀ o, P o → P (f o)) (hl : ∀ o ∈ l, P o) : ∀ o ∈ modifyIdx l i f, P o := by
  induction l generalizing i with
  | nil => simp [modifyIdx]
  | cons x xs ih =>
    cases i with
    | zero =>
      intro o ho
      rcases List.mem_cons.mp ho with rfl | ho
      · exact hf x (hl x (List.mem_cons_self _ _))
      · exact hl o (List.mem_cons_of_mem _ ho)
    | succ n =>
      intro o ho
      rcases List.mem_cons.mp ho with rfl | ho
      · exact hl o (List.mem_cons_self _ _)
      · exact ih n (fun o2 ho2 => hl o2 (List.mem_cons_of_mem _ ho2)) o ho

theorem foldl_preserves {β γ : Type} (P : β → Prop)
    (step : List β → γ → List β)
    (hstep : ∀ acc x, (∀ o ∈ acc, P o) → ∀ o ∈ step acc x, P o) :
    ∀ (L : List γ) (init : List β), (∀ o ∈ init, P o) → ∀ o ∈ L.foldl step init, P o := by
  intro L
  induction L with
  | nil => intro init h; simpa using h
  | cons x L ih =>
    intro init h
    rw [List.foldl_cons]
    exact ih _ (hstep init x h)

theorem outInv_scoreAlgorithmicWith (upFn comFn : ℤ → α) (form : Form)
    (entries : List (RankInput α)) :
    ∀ o ∈ scoreAlgorithmicWith upFn comFn form entries, OutInv o := by
  intro o ho
  unfold scoreAlgorithmicWith at ho
  rcases List.mem_map.mp ho with ⟨input, _, rfl⟩
  refine ⟨le_max_left _ _, ?_, le_refl _, ?_⟩
  · apply max_le
    · norm_num
    · exact min_le_left _ _
  · rw [add_zero]
    rw [max_eq_right (le_max_left _ _)]

theorem diversityPenaltyAt_nonpos (rank : Nat) : (diversityPenaltyAt rank : α) ≤ 0 := by
  unfold diversityPenaltyAt
  apply max_le
  · norm_num
  · have h1 : (0 : α) ≤ (rank : α) := Nat.cast_nonneg rank
    nlinarith

theorem saturationPenaltyAt_nonpos (rank : Nat) : (saturationPenaltyAt rank : α) ≤ 0 := by
  unfold saturationPenaltyAt
  apply max_le
  · norm_num
  · have h1 : (0 : α) ≤ (rank : α) := Nat.cast_nonneg rank
    nlinarith

theorem outInv_diversityUpdate (rank : Nat) (w : GoStr) (o : RankOutput α)
    (h : OutInv o) : OutInv (diversityUpdate rank w o) := by
  rcases h with ⟨h1, h2, h3, _⟩
  refine ⟨h1, h2, ?_, rfl⟩
  have := diversityPenaltyAt_nonpos (α := α) rank
  simp only [diversityUpdate]
  linarith

theorem outInv_saturationUpdate (rank : Nat) (o : RankOutput α)
    (h : OutInv o) : OutInv (saturationUpdate rank o) := by
  rcases h with ⟨h1, h2, h3, _⟩
  refine ⟨h1, h2, ?_, rfl⟩
  have := saturationPenaltyAt_nonpos (α := α) rank
  simp only [saturationUpdate]
  linarith

theorem assessPenalty_nonpos (a : Assessment α) : assessPenalty a ≤ 0 := by
  unfold assessPenalty
  dsimp only
  split
  · rename_i hpos
    split
    · norm_num
    · split
      · norm_num
      · linarith
  · rename_i hpos
    push_neg at hpos
    split
    · norm_num
    · split
      · norm_num
      · exact hpos

theorem outInv_applyDiversityPenalty (form : Form) (entries : List (RankInput α))
    (outputs : List (RankOutput α)) (h : ∀ o ∈ outputs, OutInv o) :
    ∀ o ∈ applyDiversityPenalty form entries outputs, OutInv o := by
  unfold applyDiversityPenalty
  split
  · exact h
  · apply foldl_preserves OutInv penalizeGroup ?_ _ _ h
    intro acc g hacc
    unfold penalizeGroup
    split
    · exact hacc
    · apply foldl_preserves OutInv _ ?_ _ _ hacc
      intro acc2 rank hacc2
      split
      · exact hacc2
      · exact modifyIdx_forall OutInv acc2 _ _ (outInv_diversityUpdate rank _) hacc2

theorem outInv_applyThreadSaturation (entries : List (RankInput α))
    (outputs : List (RankOutput α)) (h : ∀ o ∈ outputs, OutInv o) :
    ∀ o ∈ applyThreadSaturation entries outputs, OutInv o := by
  unfold applyThreadSaturation
  apply foldl_preserves OutInv saturateGroup ?_ _ _ h
  intro acc g hacc
  unfold saturateGroup
  split
  · exact hacc
  · apply foldl_preserves OutInv _ ?_ _ _ hacc
    intro acc2 rank hacc2
    split
    · exact hacc2
    · exact modifyIdx_forall OutInv acc2 _ _ (outInv_saturationUpdate rank) hacc2

theorem outInv_applyAssessments (outputs : List (RankOutput α))
    (assessments : List (Assessment α)) (h : ∀ o ∈ outputs, OutInv o) :
    ∀ o ∈ applyAssessments outputs assessments, OutInv o := by
  unfold applyAssessments
  apply foldl_preserves OutInv _ ?_ _ _ h
  intro acc a hacc
  split
  · exact hacc
  · apply modifyIdx_forall OutInv acc _ _ ?_ hacc
    intro o ho
    rcases ho with ⟨h1, h2, _, _⟩
    exact ⟨h1, h2, assessPenalty_nonpos a, rfl⟩

theorem outInv_finalScore_range (o : RankOutput α) (h : OutInv o) :
    0 ≤ o.finalScore ∧ o.finalScore ≤ 100 := by
  rcases h with ⟨h1, h2, h3, h4⟩
  rw [h4]
  constructor
  · exact le_max_left _ _
  · apply max_le
    · norm_num
    · linarith
/-- The ranking pass of `RankEntries` (part_018 lines 38-62) with the
model response made explicit: algorithmic scoring, diversity penalty,
thread saturation, then the assessment stage; `none` models a failed
model call, after which the pre-assessment outputs are returned. -/
noncomputable def rankEntriesPure (form : Form) (entries : List (RankInput ℝ))
    (assessments : Option (List (Assessment ℝ))) : List (RankOutput ℝ) :=
  if entries = [] then []
  else
    match assessments with
    | none => applyThreadSaturation entries
        (applyDiversityPenalty form entries (scoreAlgorithmic form entries))
    | some as => applyAssessments
        (applyThreadSaturation entries
          (applyDiversityPenalty form entries (scoreAlgorithmic form entries))) as

/-- Zero value of `ThreadState`. -/
def defaultThreadState : ThreadState α :=
  { postID := [], permalink := [], title := [], subreddit := [], score := 0,
    numComments := 0, status := [] }

/-- `FindThreadIndex` (part_014 lines 87-94): index of the first thread
with the given post id, `none` for the sentinel −1. -/
def findThreadIndex (m : Manifest α) (postID : GoStr) : Option Nat :=
  m.threads.findIdx? (fun t => decide (t.postID = postID))

/-- The write-back loop of `rankEntries` (src/unnamed/part_013 lines
781-798): for each ranker output, locate the thread by post id, skip
out-of-range entry indices, write the final score as the entry's rank
score, and the flags/reason when non-empty. -/
def writeBackScores (m : Manifest α) (outs : List (RankOutput α)) : Manifest α :=
  outs.foldl (fun m out =>
    match findThreadIndex m out.threadPostID with
    | none => m
    | some idx =>
      if out.entryIndex < (0 : ℤ)
          ∨ ((m.threads.getD idx defaultThreadState).entries.length : ℤ) ≤ out.entryIndex then
        m
      else
        { m with threads := modifyIdx m.threads idx (fun t =>
            { t with entries := modifyIdx t.entries out.entryIndex.toNat (fun e =>
                let e1 := { e with rankScore := some out.finalScore }
                let e2 := if out.flags ≠ [] then { e1 with rankFlags := out.flags } else e1
                if out.reason ≠ [] then { e2 with rankReason := out.reason } else e2) }) })
    m

/-- Score-range property of a manifest: every non-null rank score lies
in [0, 100]. -/
def ScoresInRange (m : Manifest α) : Prop :=
  ∀ t ∈ m.threads, ∀ e ∈ t.entries, ∀ s, e.rankScore = some s → 0 ≤ s ∧ s ≤ 100

theorem writeBackScores_range (m : Manifest α) (outs : List (RankOutput α))
    (hm : ScoresInRange m)
    (houts : ∀ o ∈ outs, 0 ≤ o.finalScore ∧ o.finalScore ≤ 100) :
    ScoresInRange (writeBackScores m outs) := by
  unfold writeBackScores
  induction outs generalizing m with
  | nil => exact hm
  | cons out rest ih =>
    rw [List.foldl_cons]
    apply ih
    · cases hidx : findThreadIndex m out.threadPostID with
      | none =>
        simp only [hidx]
        exact hm
      | some idx =>
        simp only [hidx]
        split
        · exact hm
        · unfold ScoresInRange at hm ⊢
          refine modifyIdx_forall
            (fun t => ∀ e ∈ t.entries, ∀ s, e.rankScore = some s → 0 ≤ s ∧ s ≤ 100)
            m.threads idx _ ?_ hm
          intro t0 ht0
          refine modifyIdx_forall
            (fun e => ∀ s, e.rankScore = some s → 0 ≤ s ∧ s ≤ 100)
            t0.entries out.entryIndex.toNat _ ?_ ht0
          intro e0 _ s0 hs0
          have hval : some out.finalScore = some s0 := by
            rw [← hs0]
            split
            · split <;> rfl
            · split <;> rfl
          have h2 : out.finalScore = s0 := Option.some.inj hval
          rw [← h2]
          exact houts out (List.mem_cons_self _ _)
    · intro o ho
      exact houts o (List.mem_cons_of_mem _ ho)

/-- C6: after the ranking pass, every rank score it writes back lies in
[0, 100]: each ranker output's final score is `max 0 (algo + penalty)`
with algorithmic score at most 100 and non-positive stored penalty, so
final scores lie in [0, 100]; the write-back therefore keeps every
non-null rank score of the manifest inside [0, 100] whenever the rank
scores already present do. -/
theorem rankScores_in_range (form : Form) (entries : List (RankInput ℝ))
    (assessments : Option (List (Assessment ℝ))) (m : Manifest ℝ)
    (hm : ScoresInRange m) :
    (∀ o ∈ rankEntriesPure form entries assessments,
        o.finalScore = max 0 (o.algoScore + o.penalty)
        ∧ o.algoScore ≤ 100 ∧ o.penalty ≤ 0
        ∧ 0 ≤ o.finalScore ∧ o.finalScore ≤ 100)
    ∧ ScoresInRange (writeBackScores m (rankEntriesPure form entries assessments)) := by
  have hinv : ∀ o ∈ rankEntriesPure form entries assessments, OutInv o := by
    unfold rankEntriesPure
    split
    · simp
    · have h1 := outInv_scoreAlgorithmicWith upvoteComponent commentComponent form entries
      have h2 := outInv_applyDiversityPenalty form entries _ h1
      have h3 := outInv_applyThreadSaturation entries _ h2
      cases assessments with
      | none => exact h3
      | some as => exact outInv_applyAssessments _ as h3
  constructor
  · intro o ho
    rcases hinv o ho with ⟨h1, h2, h3, h4⟩
    rcases outInv_finalScore_range o ⟨h1, h2, h3, h4⟩ with ⟨h5, h6⟩
    exact ⟨h4, h2, h3, h5, h6⟩
  · apply writeBackScores_range m _ hm
    intro o ho
    exact outInv_finalScore_range o (hinv o ho)

/-- Witness: the score-range theorem applied at a concrete empty
manifest and entry list. -/
theorem rankScores_in_range_witness :
    (∀ o ∈ rankEntriesPure c1Form ([] : List (RankInput ℝ)) none,
        o.finalScore = max 0 (o.algoScore + o.penalty)
        ∧ o.algoScore ≤ 100 ∧ o.penalty ≤ 0
        ∧ 0 ≤ o.finalScore ∧ o.finalScore ≤ 100)
    ∧ ScoresInRange (writeBackScores ({ threads := [] } : Manifest ℝ)
        (rankEntriesPure c1Form [] none)) :=
  rankScores_in_range c1Form [] none { threads := [] } (by simp [ScoresInRange])
/-! ## Manifest mutation: adding threads (part_014 lines 96-100 and
part_013 lines 505-527) -/

/-- `AddThread` (src/unnamed/part_014 lines 97-100): append the thread
unconditionally (timestamp bookkeeping omitted). -/
def addThread (m : Manifest α) (t : ThreadState α) : Manifest α :=
  { m with threads := m.threads ++ [t] }

/-- `FindThread` (part_014 lines 77-84), reduced to the presence check
its call site performs against nil. -/
def findThreadPresent (m : Manifest α) (postID : GoStr) : Bool :=
  m.threads.any (fun t => decide (t.postID = postID))

/-- A discovered post (`types.Post`), restricted to the attributes the
add loop copies. -/
structure Post where
  id : GoStr
  permalink : GoStr
  title : GoStr
  subreddit : GoStr
  score : ℤ
  numComments : ℤ
  deriving DecidableEq, Repr

/-- The add-discovered-posts loop of `runPipeline` (src/unnamed/part_013
lines 506-527): stop at the `remaining` budget, skip posts whose id is
already present, append the rest as pending threads. -/
def addDiscoveredPosts (m : Manifest α) (posts : List Post) (remaining added : ℤ) :
    Manifest α :=
  match posts with
  | [] => m
  | post :: rest =>
    if remaining ≤ added then m
    else if findThreadPresent m post.id then addDiscoveredPosts m rest remaining added
    else
      addDiscoveredPosts
        (addThread m
          { postID := post.id, permalink := post.permalink, title := post.title,
            subreddit := post.subreddit, score := post.score,
            numComments := post.numComments, status := gostr ("pending") })
        rest remaining (added + 1)

/-- A thread already present in the counterexample manifest. -/
def c7Thread : ThreadState ℚ :=
  { postID := gostr ("abc"), permalink := gostr ("r/x/abc"), title := gostr ("T"),
    subreddit := gostr ("x"), score := 1, numComments := 0,
    status := gostr ("pending") }

/-- A manifest already containing the post id `abc`. -/
def c7Manifest : Manifest ℚ := { threads := [c7Thread] }

/-- C7 (counterexample): the claim says the add-thread primitive refuses
a thread whose post id is already present; `AddThread` appends
unconditionally, so adding a thread with the already-present id `abc`
yields a manifest whose thread post ids are no longer unique. -/
theorem addThread_accepts_duplicate :
    (addThread c7Manifest c7Thread).threads.length = 2
    ∧ ¬ ((addThread c7Manifest c7Thread).threads.map (fun t => t.postID)).Nodup := by
  decide

theorem addDiscoveredPosts_nodup_aux (posts : List Post) :
    ∀ (m : Manifest α) (remaining added : ℤ),
      ((m.threads.map (fun t => t.postID)).Nodup) →
      (((addDiscoveredPosts m posts remaining added).threads.map
          (fun t => t.postID)).Nodup) := by
  induction posts with
  | nil => intro m _ _ h; exact h
  | cons post rest ih =>
    intro m remaining added h
    unfold addDiscoveredPosts
    split
    · exact h
    · split
      · exact ih m remaining added h
      · rename_i hpresent
        apply ih
        unfold addThread
        simp only [List.map_append, List.map_cons, List.map_nil]
        rw [List.nodup_append]
        refine ⟨h, List.nodup_singleton _, ?_⟩
        intro pid hpid
        rcases List.mem_map.mp hpid with ⟨t, ht, rfl⟩
        simp only [List.mem_singleton]
        intro hcon
        apply hpresent
        unfold findThreadPresent
        apply List.any_eq_true.mpr
        exact ⟨t, ht, by simpa using hcon⟩

/-- C7 (amended): `AddThread` appends unconditionally; the duplicate
refusal lives at its call site: the discovery loop of `runPipeline`
checks `FindThread` before every `AddThread`, so the loop preserves
post-id uniqueness of the manifest. -/
theorem addDiscoveredPosts_preserves_unique_ids (m : Manifest α) (posts : List Post)
    (remaining added : ℤ)
    (h : (m.threads.map (fun t => t.postID)).Nodup) :
    ((addDiscoveredPosts m posts remaining added).threads.map
        (fun t => t.postID)).Nodup :=
  addDiscoveredPosts_nodup_aux posts m remaining added h

/-- Witness: the uniqueness-preservation theorem applied at a concrete
manifest and post list containing a duplicate id. -/
theorem addDiscoveredPosts_preserves_unique_ids_witness :
    (((addDiscoveredPosts ({ threads := [] } : Manifest ℚ)
        [{ id := gostr ("p1"), permalink := [], title := [], subreddit := [],
           score := 1, numComments := 0 },
         { id := gostr ("p1"), permalink := [], title := [], subreddit := [],
           score := 2, numComments := 3 }] 10 0).threads.map
        (fun t => t.postID)).Nodup) :=
  addDiscoveredPosts_preserves_unique_ids { threads := [] } _ 10 0 (by decide)
/-! ## Round-progress counters (`runPipeline`, part_013 lines 296-599) -/

/-- The shared pipeline state the round controller observes: the two
cumulative counters and the per-thread statuses. -/
structure PipeState where
  fedCumulative : ℤ
  doneCumulative : ℤ
  statuses : List (GoStr × GoStr)
  deriving DecidableEq, Repr

/-- The terminal statuses of a work item: skipped, failed, extracted. -/
def isTerminalStatus (s : GoStr) : Bool :=
  decide (s = gostr ("skipped")) || decide (s = gostr ("failed"))
    || decide (s = gostr ("extracted"))

/-- One shared-state update performed by a worker. -/
inductive WorkerAction where
  | incDone
  | setStatus (postID : GoStr) (status : GoStr)
  deriving DecidableEq, Repr

/-- The sequence of shared-state updates a worker performs for one
dequeued item on the successful evaluate-then-extract path, in source
order (src/unnamed/part_013 lines 304-434): the `done` counter is
incremented at pickup (`n := done.Add(1)`, line 319), before the
evaluation step marks the thread `collected` (line 358) and the
extraction step marks it `extracted` (line 429). -/
def workerHappyPath (postID : GoStr) : List WorkerAction :=
  [WorkerAction.incDone,
   WorkerAction.setStatus postID (gostr ("collected")),
   WorkerAction.setStatus postID (gostr ("extracted"))]

/-- Apply one worker update to the shared state. -/
def applyAction (st : PipeState) : WorkerAction → PipeState
  | WorkerAction.incDone => { st with doneCumulative := st.doneCumulative + 1 }
  | WorkerAction.setStatus pid s =>
      { st with statuses := st.statuses.map (fun p => if p.1 = pid then (p.1, s) else p) }

/-- Run a sequence of worker updates. -/
def runActions (st : PipeState) (l : List WorkerAction) : PipeState :=
  l.foldl applyAction st

/-- Number of items at a terminal status. -/
def terminalCount (st : PipeState) : ℤ :=
  ((st.statuses.filter (fun p => isTerminalStatus p.2)).length : ℤ)

/-- The round-completion test of the driver loop (part_013 line 567):
`done.Load() >= roundTarget`. -/
def roundComplete (st : PipeState) : Bool :=
  decide (st.fedCumulative ≤ st.doneCumulative)

/-- The shared state with one fed pending item, before the worker runs. -/
def c8Start : PipeState :=
  { fedCumulative := 1, doneCumulative := 0,
    statuses := [(gostr ("p1"), gostr ("pending"))] }

/-- C8: the claim says `done_cumulative` is never incremented before the
item reaches a terminal status, so `done ≥ fed` holds only when every
fed item is terminal.  In the code the worker increments `done` at
dequeue (part_013 line 319), before evaluating or extracting: after the
worker's first shared-state update on a single fed item, the
round-completion test `done ≥ fed` already passes while the item is
still `pending` — `done_cumulative` exceeds the number of terminal
items, refuting the claim at this concrete trace. -/
theorem done_incremented_before_terminal :
    roundComplete (runActions c8Start (List.take 1 (workerHappyPath (gostr ("p1"))))) = true
    ∧ terminalCount (runActions c8Start (List.take 1 (workerHappyPath (gostr ("p1"))))) = 0
    ∧ terminalCount (runActions c8Start (List.take 1 (workerHappyPath (gostr ("p1")))))
        < (runActions c8Start (List.take 1 (workerHappyPath (gostr ("p1"))))).doneCumulative
    ∧ isTerminalStatus
        (((runActions c8Start (List.take 1 (workerHappyPath (gostr ("p1"))))).statuses.getD 0
          ([], [])).2) = false
    ∧ terminalCount (runActions c8Start (workerHappyPath (gostr ("p1")))) = 1 := by
  decide

/-! ## Subreddit-name normalization (src/internal/agent/discovery.go
lines 201-229) -/

/-- ASCII whitespace bytes of `strings.TrimSpace` (the names the model
returns are ASCII). -/
def isSpaceByte (b : Nat) : Bool :=
  decide (b = 32) || decide (b = 9) || decide (b = 10) || decide (b = 11)
    || decide (b = 12) || decide (b = 13)

/-- Drop leading bytes satisfying `p`. -/
def trimLeft (p : Nat → Bool) : GoStr → GoStr
  | [] => []
  | b :: rest => if p b then trimLeft p rest else b :: rest

/-- Drop bytes satisfying `p` from both ends (Go `strings.Trim` with a
byte cutset). -/
def trimBoth (p : Nat → Bool) (s : GoStr) : GoStr :=
  (trimLeft p (trimLeft p s.reverse).reverse)

/-- The cutset of the `strings.Trim` call in `normalizeSubredditName`:
space, tab, CR, LF, double and single quote, backtick, and the
punctuation bytes for dot, comma, semicolon, colon, bang, question
mark, parentheses, square and curly brackets. -/
def isTrimCutByte (b : Nat) : Bool :=
  [32, 9, 13, 10, 34, 39, 96, 46, 44, 59, 58, 33, 63, 40, 41, 91, 93, 123, 125].contains b

/-- Strip one leading `r/` (Go `strings.TrimPrefix`). -/
def stripRSlash (s : GoStr) : GoStr :=
  if (gostr ("r/")) <+: s then s.drop 2 else s

/-- Bytes allowed in a subreddit name: a-z, 0-9, underscore. -/
def isSubredditByte (b : Nat) : Bool :=
  decide (97 ≤ b ∧ b ≤ 122) || decide (48 ≤ b ∧ b ≤ 57) || decide (b = 95)

/-- `normalizeSubredditName` (discovery.go lines 215-229): trim space,
lowercase, strip one leading `r/`, trim surrounding quote/punctuation
bytes, then validate length 2..21 and the character set; invalid names
become the empty string. -/
def normalizeSubredditName (name : GoStr) : GoStr :=
  let s := trimBoth isSpaceByte name
  let s := stripRSlash (s.map byteToLower)
  let s := trimBoth isTrimCutByte s
  if s.length < 2 ∨ 21 < s.length then []
  else if s.all isSubredditByte then s
  else []

/-- Accumulator pass of `normalizeSubredditNames` over the seen-set of
lowercased cleaned names. -/
def normalizeSubredditNamesAux : List GoStr → List GoStr → List GoStr
  | [], _ => []
  | name :: rest, seen =>
    let clean := normalizeSubredditName name
    if clean = [] ∨ (clean.map byteToLower) ∈ seen then
      normalizeSubredditNamesAux rest seen
    else clean :: normalizeSubredditNamesAux rest ((clean.map byteToLower) :: seen)

/-- `normalizeSubredditNames` (discovery.go lines 201-213): clean each
name, drop the ones cleaning rejects, deduplicate case-insensitively. -/
def normalizeSubredditNames (names : List GoStr) : List GoStr :=
  normalizeSubredditNamesAux names []

/-- Spec-side regex `^[a-z0-9_]{2,21}$`. -/
def matchesSubredditRegex (s : GoStr) : Bool :=
  decide (2 ≤ s.length) && decide (s.length ≤ 21) && s.all isSubredditByte

theorem normalizeSubredditName_valid (name : GoStr)
    (h : normalizeSubredditName name ≠ []) :
    matchesSubredditRegex (normalizeSubredditName name) = true := by
  unfold normalizeSubredditName at h ⊢
  dsimp only at h ⊢
  split at h
  · exact absurd rfl h
  · rename_i hlen
    push_neg at hlen
    split at h
    · rename_i hall
      rw [if_neg (by omega), if_pos hall]
      unfold matchesSubredditRegex
      rw [hall]
      simp only [Bool.and_true]
      rw [decide_eq_true (by omega), decide_eq_true (by omega)]
      rfl
    · exact absurd rfl h

theorem normalizeSubredditNamesAux_mem (names : List GoStr) :
    ∀ (seen : List GoStr) (s : GoStr), s ∈ normalizeSubredditNamesAux names seen →
      (∃ name ∈ names, s = normalizeSubredditName name) ∧ s ≠ []
        ∧ (s.map byteToLower) ∉ seen := by
  induction names with
  | nil => intro seen s h; simp [normalizeSubredditNamesAux] at h
  | cons name rest ih =>
    intro seen s h
    unfold normalizeSubredditNamesAux at h
    dsimp only at h
    split at h
    · rcases ih seen s h with ⟨⟨n2, hn2, rfl⟩, hne, hnot⟩
      exact ⟨⟨n2, List.mem_cons_of_mem _ hn2, rfl⟩, hne, hnot⟩
    · rename_i hcond
      push_neg at hcond
      rcases List.mem_cons.mp h with rfl | h2
      · exact ⟨⟨name, List.mem_cons_self _ _, rfl⟩, hcond.1, hcond.2⟩
      · rcases ih _ s h2 with ⟨⟨n2, hn2, rfl⟩, hne, hnot⟩
        refine ⟨⟨n2, List.mem_cons_of_mem _ hn2, rfl⟩, hne, ?_⟩
        intro hc
        exact hnot (List.mem_cons_of_mem _ hc)

theorem normalizeSubredditNamesAux_pairwise (names : List GoStr) :
    ∀ (seen : List GoStr),
      (normalizeSubredditNamesAux names seen).Pairwise
        (fun a b => a.map byteToLower ≠ b.map byteToLower) := by
  induction names with
  | nil => intro seen; simp [normalizeSubredditNamesAux]
  | cons name rest ih =>
    intro seen
    unfold normalizeSubredditNamesAux
    dsimp only
    split
    · exact ih seen
    · refine List.pairwise_cons.mpr ⟨?_, ih _⟩
      intro b hb hcon
      rcases normalizeSubredditNamesAux_mem rest _ b hb with ⟨_, _, hnot⟩
      exact hnot (by
        rw [← hcon]
        exact List.mem_cons_self _ _)

/-- C9: the subreddit-name normalization strips the `r/` prefix,
lowercases, and drops every name that does not match `^[a-z0-9_]{2,21}$`
after cleaning: every surviving name is the cleaning of some input name
and matches the regex, and the resulting list has no case-insensitive
duplicates. -/
theorem normalizeSubredditNames_spec (names : List GoStr) :
    (∀ s ∈ normalizeSubredditNames names, matchesSubredditRegex s = true)
    ∧ (normalizeSubredditNames names).Pairwise
        (fun a b => a.map byteToLower ≠ b.map byteToLower)
    ∧ ∀ s ∈ normalizeSubredditNames names,
        ∃ name ∈ names, s = normalizeSubredditName name := by
  refine ⟨?_, normalizeSubredditNamesAux_pairwise names [], ?_⟩
  · intro s hs
    rcases normalizeSubredditNamesAux_mem names [] s hs with ⟨⟨name, _, rfl⟩, hne, _⟩
    exact normalizeSubredditName_valid name hne
  · intro s hs
    exact (normalizeSubredditNamesAux_mem names [] s hs).1
